import Mathlib

/-!
ChatServer: an epoll chat room.

A shallow embedding of `src/src/server.cpp` (class `Server`) and a verification of its
naming protocol, broadcast fan-out, line framing, write path and teardown.

Modelling decisions, all of them about the environment and none about the code:

* `std::string` is a list of characters, `std::deque<std::string>` a list of such lists.
* `std::unordered_map<int, Client> clients` is a list of `Client` records keyed by their
  `fd` field.  `accept_new` is the only place that inserts, it stores `c.fd = cfd` under
  the key `cfd`, and nothing writes `fd` afterwards, so key and field coincide.  The
  iteration order of the map is the order of the list; every theorem holds for every order.
* The kernel is a `World`: the interest list of `epfd`, the number of system calls made so
  far (`tick`) and a chronological trace of the calls and queue appends (`log`).
* The results of `::send` and of `epoll_ctl` (ADD and MOD) are inputs: an `Env` assigns an
  outcome to the n-th system call.  `::recv` and `::accept` results are passed to
  `handle_read` and `accept_new` as scripts.
* A reference `Client& c` is the key of its map node; using it after the node was erased is
  reported as `Fault.useAfterFree`.
-/

namespace ChatServer

/-- A byte string (`std::string`). -/
abbrev Bytes := List Char

/-- An epoll event mask, reduced to the three bits the server uses. -/
structure Interest where
  readable : Bool
  writable : Bool
  edge : Bool
deriving DecidableEq, Repr

/-- The mask `EPOLLIN | EPOLLET`. -/
def EPOLLIN_ET : Interest := ⟨true, false, true⟩

/-- The mask `EPOLLIN | EPOLLOUT | EPOLLET`. -/
def EPOLLIN_OUT_ET : Interest := ⟨true, true, true⟩

/-- The record `Server::Client` of `server.hpp`. -/
structure Client where
  fd : Int
  named : Bool
  name : Bytes
  inbuf : Bytes
  outq : List Bytes
deriving DecidableEq, Repr

/-- What a call of `::send` returns: a byte count, `EAGAIN/EWOULDBLOCK`, or any other error. -/
inductive SendOutcome where
  | accepted (k : Nat)
  | wouldBlock
  | fatal
deriving DecidableEq, Repr

/-- One entry of the trace. -/
inductive Event where
  | send (fd : Int) (data : Bytes) (res : SendOutcome)
  | push (fd : Int) (data : Bytes)
  | add (fd : Int) (ev : Interest) (ok : Bool)
  | modify (fd : Int) (ev : Interest) (ok : Bool)
  | line (fd : Int) (l : Bytes)
  | bcast (msg : Bytes) (except_fd : Int)
  | closed (fd : Int)
deriving DecidableEq, Repr

/-- The inputs from the kernel: the outcome of the n-th system call, read as a `::send`
result, as the success of an `epoll_ctl(EPOLL_CTL_ADD)` or as the success of an
`epoll_ctl(EPOLL_CTL_MOD)`, whichever call is the n-th. -/
structure Env where
  send : Nat → SendOutcome
  addOk : Nat → Bool
  modOk : Nat → Bool

/-- Kernel-side state together with the trace. -/
structure World where
  epoll : Int → Option Interest
  tick : Nat
  log : List Event

/-- The state of a running `Server`: the member `clients` and the world around it. -/
structure Server where
  clients : List Client
  w : World

/-- What goes wrong in `handle_read` besides a normal return. -/
inductive Fault where
  | useAfterFree
  | outOfFuel
deriving DecidableEq, Repr

/-- How the drain loop of `handle_read` ends once the scripted chunks are consumed. -/
inductive RecvEnd where
  | wouldBlock
  | eof
  | error
deriving DecidableEq, Repr

/-- The server before any connection: empty table, empty interest list. -/
def Server.init : Server := ⟨[], ⟨fun _ => none, 0, []⟩⟩

/-! ## The connection table -/

/-- The lookup `clients.find(fd)`. -/
def findClient (cs : List Client) (fd : Int) : Option Client :=
  cs.find? (fun c => decide (c.fd = fd))

/-- The removal `clients.erase(it)`. -/
def eraseClient (cs : List Client) (fd : Int) : List Client :=
  cs.filter (fun c => decide (c.fd ≠ fd))

/-- A write through a reference to the node keyed `fd`. -/
def updateClient (cs : List Client) (fd : Int) (f : Client → Client) : List Client :=
  cs.map (fun c => if c.fd = fd then f c else c)

/-- The assignment `clients[cfd] = c`: overwrite the node if the key exists, else add one. -/
def insertClient (cs : List Client) (c : Client) : List Client :=
  if (findClient cs c.fd).isSome then updateClient cs c.fd (fun _ => c) else cs ++ [c]

/-- The keys of the table. -/
def fds (cs : List Client) : List Int := cs.map Client.fd

/-! ## System calls -/

/-- The kernel contract of `::send(fd, data, len, 0)`: a byte count never exceeds `len`. -/
def sysSend (o : SendOutcome) (len : Nat) : SendOutcome :=
  match o with
  | .accepted k => .accepted (min k len)
  | .wouldBlock => .wouldBlock
  | .fatal => .fatal

/-- The call `::send(fd, data.data(), data.size(), 0)`. -/
def World.send (env : Env) (w : World) (fd : Int) (data : Bytes) : SendOutcome × World :=
  let r := sysSend (env.send w.tick) data.length
  (r, { w with tick := w.tick + 1, log := w.log ++ [Event.send fd data r] })

/-- The trace entry for an append to the outbound queue of `fd`. -/
def World.push (w : World) (fd : Int) (data : Bytes) : World :=
  { w with log := w.log ++ [Event.push fd data] }

/-- The trace entry for any other event. -/
def World.note (w : World) (e : Event) : World :=
  { w with log := w.log ++ [e] }

/-- The function `Server::add_epoll`. -/
def add_epoll (env : Env) (w : World) (fd : Int) (ev : Interest) : Bool × World :=
  let ok := env.addOk w.tick
  (ok, { epoll := if ok then Function.update w.epoll fd (some ev) else w.epoll,
         tick := w.tick + 1,
         log := w.log ++ [Event.add fd ev ok] })

/-- The function `Server::mod_epoll`. -/
def mod_epoll (env : Env) (w : World) (fd : Int) (ev : Interest) : Bool × World :=
  let ok := env.modOk w.tick
  (ok, { epoll := if ok then Function.update w.epoll fd (some ev) else w.epoll,
         tick := w.tick + 1,
         log := w.log ++ [Event.modify fd ev ok] })

/-- The function `Server::del_epoll`. -/
def del_epoll (w : World) (fd : Int) : World :=
  { w with epoll := Function.update w.epoll fd none }

/-- The call `::close(fd)`: a closed descriptor leaves every interest list. -/
def sysClose (w : World) (fd : Int) : World :=
  { w with epoll := Function.update w.epoll fd none }

/-! ## Strings of the protocol -/

/-- The prompt queued by `accept_new`. -/
def namePrompt : Bytes := "Enter your name: ".toList

/-- The prompt queued by `on_line` for an empty name. -/
def emptyNamePrompt : Bytes := "Name cannot be empty. Enter your name: ".toList

/-- The suffix of a join notice. -/
def joinedSuffix : Bytes := " has joined the chat.\n".toList

/-- The suffix of a leave notice. -/
def leftSuffix : Bytes := " has left the chat.\n".toList

/-- The function `Server::trim_newlines`: pop from the back while the last character is
a carriage return or a line feed. -/
def trim_newlines (s : Bytes) : Bytes :=
  s.rdropWhile (fun ch => ch == '\r' || ch == '\n')

/-- The call `s.find(ch, pos)`: index of the first `ch` at or after `pos`, `none` for `npos`. -/
def findFrom (s : Bytes) (ch : Char) (pos : Nat) : Option Nat :=
  let t := s.drop pos
  if t.indexOf ch < t.length then some (pos + t.indexOf ch) else none

/-- The call `s.substr(pos, n)`. -/
def substr (s : Bytes) (pos n : Nat) : Bytes := (s.drop pos).take n

/-! ## Broadcast and teardown -/

/-- One iteration of the loop of `Server::broadcast` (lines 234 to 254), on the entry `cl`.
Returns the entry, the world and what was appended to `to_close`. -/
def visit (env : Env) (msg : Bytes) (except_fd : Int) (cl : Client) (w : World) :
    Client × World × List Int :=
  if cl.fd = except_fd then (cl, w, [])
  else if cl.outq.isEmpty then
    match World.send env w cl.fd msg with
    | (.accepted k, w1) =>
      if k = msg.length then (cl, w1, [])
      else if k < msg.length then
        ({ cl with outq := cl.outq ++ [msg.drop k] },
          (mod_epoll env (w1.push cl.fd (msg.drop k)) cl.fd EPOLLIN_OUT_ET).2, [])
      else (cl, (mod_epoll env w1 cl.fd EPOLLIN_OUT_ET).2, [])
    | (.wouldBlock, w1) =>
      ({ cl with outq := cl.outq ++ [msg] },
        (mod_epoll env (w1.push cl.fd msg) cl.fd EPOLLIN_OUT_ET).2, [])
    | (.fatal, w1) => (cl, w1, [cl.fd])
  else
    ({ cl with outq := cl.outq ++ [msg] },
      (mod_epoll env (w.push cl.fd msg) cl.fd EPOLLIN_OUT_ET).2, [])

/-- The loop `for (auto& [fd, cl] : clients)` of `Server::broadcast` over the entries. -/
def fanoutList (env : Env) (msg : Bytes) (except_fd : Int) :
    List Client → World → List Client × World × List Int
  | [], w => ([], w, [])
  | cl :: rest, w =>
    let r := visit env msg except_fd cl w
    let rs := fanoutList env msg except_fd rest r.2.1
    (r.1 :: rs.1, rs.2.1, r.2.2 ++ rs.2.2)

/-- The fan-out pass of `Server::broadcast`: the state after the first loop and `to_close`. -/
def fanout (env : Env) (msg : Bytes) (except_fd : Int) (st : Server) : Server × List Int :=
  let r := fanoutList env msg except_fd st.clients (st.w.note (Event.bcast msg except_fd))
  (⟨r.1, r.2.1⟩, r.2.2)

/-- The state after the erase, `del_epoll` and `::close` of `Server::close_client`. -/
def removeClient (st : Server) (fd : Int) : Server :=
  ⟨eraseClient st.clients fd, (sysClose (del_epoll st.w fd) fd).note (Event.closed fd)⟩

/-- The function `Server::close_client`, with the callee `broadcast` as a parameter. -/
def closeWith (bc : Server → Bytes → Int → Option Server) (st : Server) (fd : Int) :
    Option Server :=
  match findClient st.clients fd with
  | some c =>
    let st1 := removeClient st fd
    if c.named then bc st1 (c.name ++ leftSuffix) fd else some st1
  | none => some ⟨st.clients, sysClose (del_epoll st.w fd) fd⟩

/-- The second loop of `Server::broadcast`: `for (int fd : to_close) close_client(fd, ...)`. -/
def closeAllWith (bc : Server → Bytes → Int → Option Server) (to_close : List Int)
    (st : Server) : Option Server :=
  to_close.foldl (fun acc fd => acc.bind (fun s => closeWith bc s fd)) (some st)

/-- The function `Server::broadcast` with a bound on the nesting of
`broadcast → close_client → broadcast`; `none` when the bound is reached. -/
def broadcastF (env : Env) : Nat → Server → Bytes → Int → Option Server
  | 0, _, _, _ => none
  | n + 1, st, msg, except_fd =>
    closeAllWith (broadcastF env n) (fanout env msg except_fd st).2
      (fanout env msg except_fd st).1

/-- The function `Server::broadcast`.  Every nested call follows an erase, so one more
level than there are entries is enough (theorem `broadcastF_adequate`). -/
def broadcast (env : Env) (st : Server) (msg : Bytes) (except_fd : Int) : Server :=
  (broadcastF env (st.clients.length + 1) st msg except_fd).getD st

/-- The function `Server::close_client` (theorem `close_client_adequate` for the bound). -/
def close_client (env : Env) (st : Server) (fd : Int) : Server :=
  (closeWith (broadcastF env st.clients.length) st fd).getD st

/-- The deferred teardown loop at the end of `Server::broadcast`. -/
def closeAll (env : Env) (to_close : List Int) (st : Server) : Server :=
  (closeAllWith (broadcastF env st.clients.length) to_close st).getD st

/-! ## The protocol state machine -/

/-- The function `Server::on_line`; the reference `c` is the entry keyed `fd`. -/
def on_line (env : Env) (st : Server) (fd : Int) (line : Bytes) : Server :=
  match findClient st.clients fd with
  | none => st
  | some c =>
    if !c.named then
      let uname := trim_newlines line
      if uname.isEmpty then
        ⟨updateClient st.clients fd (fun x => { x with outq := x.outq ++ [emptyNamePrompt] }),
          (mod_epoll env (st.w.push c.fd emptyNamePrompt) c.fd EPOLLIN_OUT_ET).2⟩
      else
        broadcast env
          ⟨updateClient st.clients fd (fun x => { x with named := true, name := uname }), st.w⟩
          (uname ++ joinedSuffix) c.fd
    else
      broadcast env st (c.name ++ ": ".toList ++ line ++ "\n".toList) c.fd

/-! ## The read path -/

/-- The drain loop of `Server::handle_read` (lines 134 to 147) on the inbound buffer:
the buffer afterwards, and whether the loop left through `close_client`. -/
def drainRecv (inbuf : Bytes) : List Bytes → RecvEnd → Bytes × Bool
  | [], .wouldBlock => (inbuf, false)
  | [], _ => (inbuf, true)
  | chunk :: rest, fin =>
    if 0 < chunk.length then drainRecv (inbuf ++ chunk) rest fin else (inbuf, true)

/-- The framing loop of `Server::handle_read` (lines 149 to 160). -/
def frameLoop (env : Env) (fd : Int) : Nat → Server → Nat → Except Fault Server
  | 0, _, _ => .error .outOfFuel
  | fuel + 1, st, pos =>
    match findClient st.clients fd with
    | none => .error .useAfterFree
    | some c =>
      match findFrom c.inbuf '\n' pos with
      | none =>
        if 0 < pos then
          .ok ⟨updateClient st.clients fd (fun x => { x with inbuf := x.inbuf.drop pos }), st.w⟩
        else .ok st
      | some nl =>
        let line := trim_newlines (substr c.inbuf pos (nl - pos))
        frameLoop env fd fuel (on_line env ⟨st.clients, st.w.note (Event.line fd line)⟩ fd line)
          (nl + 1)

/-- The framing loop started at position 0 on the buffer of `fd`. -/
def frame (env : Env) (st : Server) (fd : Int) : Except Fault Server :=
  match findClient st.clients fd with
  | none => .error .useAfterFree
  | some c => frameLoop env fd (c.inbuf.length + 1) st 0

/-- The function `Server::handle_read`; `chunks` and `fin` script the results of `::recv`. -/
def handle_read (env : Env) (st : Server) (fd : Int) (chunks : List Bytes) (fin : RecvEnd) :
    Except Fault Server :=
  match findClient st.clients fd with
  | none => .ok st
  | some c =>
    let r := drainRecv c.inbuf chunks fin
    let st1 : Server := ⟨updateClient st.clients fd (fun x => { x with inbuf := r.1 }), st.w⟩
    if r.2 then .ok (close_client env st1 fd) else frame env st1 fd

/-! ## The write path -/

/-- How the loop of `Server::handle_write` ends. -/
inductive DrainEnd where
  | emptied
  | blocked
  | shortWrite
  | failed
deriving DecidableEq, Repr

/-- The loop `while (!c.outq.empty())` of `Server::handle_write` on the queue of `fd`. -/
def drainQueue (env : Env) (fd : Int) : List Bytes → World → DrainEnd × List Bytes × World
  | [], w => (.emptied, [], w)
  | front :: rest, w =>
    match World.send env w fd front with
    | (.wouldBlock, w1) => (.blocked, front :: rest, w1)
    | (.fatal, w1) => (.failed, front :: rest, w1)
    | (.accepted k, w1) =>
      if k < front.length then (.shortWrite, front.drop k :: rest, w1)
      else drainQueue env fd rest w1

/-- The function `Server::handle_write`. -/
def handle_write (env : Env) (st : Server) (fd : Int) : Server :=
  match findClient st.clients fd with
  | none => st
  | some c =>
    match drainQueue env fd c.outq st.w with
    | (.emptied, q, w1) =>
      ⟨updateClient st.clients fd (fun x => { x with outq := q }),
        (mod_epoll env w1 fd EPOLLIN_ET).2⟩
    | (.failed, q, w1) =>
      close_client env ⟨updateClient st.clients fd (fun x => { x with outq := q }), w1⟩ fd
    | (_, q, w1) => ⟨updateClient st.clients fd (fun x => { x with outq := q }), w1⟩

/-! ## The acceptor -/

/-- The loop of `Server::accept_new`; each scripted connection is the descriptor returned by
`::accept` and whether `set_nonblocking` succeeded on it.  The loop ends when the script
does (`accept` would block or failed). -/
def accept_new (env : Env) : List (Int × Bool) → Server → Server
  | [], st => st
  | (cfd, nonblock) :: rest, st =>
    if !nonblock then accept_new env rest ⟨st.clients, sysClose st.w cfd⟩
    else
      match add_epoll env st.w cfd EPOLLIN_ET with
      | (false, w1) => accept_new env rest ⟨st.clients, sysClose w1 cfd⟩
      | (true, w1) =>
        let c : Client := ⟨cfd, false, [], [], []⟩
        let cs := updateClient (insertClient st.clients c) cfd
          (fun x => { x with outq := x.outq ++ [namePrompt] })
        accept_new env rest ⟨cs, (mod_epoll env (w1.push cfd namePrompt) cfd EPOLLIN_OUT_ET).2⟩

/-! ## Reading the trace -/

/-- The descriptor an event concerns, if it concerns one. -/
def Event.about : Event → Option Int
  | .send fd _ _ => some fd
  | .push fd _ => some fd
  | .add fd _ _ => some fd
  | .modify fd _ _ => some fd
  | .line fd _ => some fd
  | .bcast _ _ => none
  | .closed fd => some fd

/-- The `::send` calls on `fd` in a trace: the buffer passed and the result. -/
def sendsTo (fd : Int) (evs : List Event) : List (Bytes × SendOutcome) :=
  evs.filterMap (fun e =>
    match e with
    | .send f d r => if f = fd then some (d, r) else none
    | _ => none)

/-- The chunks appended to the outbound queue of `fd` in a trace. -/
def pushesTo (fd : Int) (evs : List Event) : List Bytes :=
  evs.filterMap (fun e =>
    match e with
    | .push f d => if f = fd then some d else none
    | _ => none)

/-- The bytes the kernel took from one `::send`. -/
def acceptedBytes : Bytes × SendOutcome → Bytes
  | (d, .accepted k) => d.take k
  | _ => []

/-- The bytes written to `fd` in a trace, in order. -/
def writtenTo (fd : Int) (evs : List Event) : Bytes :=
  ((sendsTo fd evs).map acceptedBytes).flatten

/-- The lines dispatched to `on_line` for `fd` in a trace, in order. -/
def linesOf (fd : Int) (evs : List Event) : List Bytes :=
  evs.filterMap (fun e =>
    match e with
    | .line f l => if f = fd then some l else none
    | _ => none)

/-- The calls of `broadcast` in a trace: message and excluded descriptor. -/
def bcastsOf (evs : List Event) : List (Bytes × Int) :=
  evs.filterMap (fun e =>
    match e with
    | .bcast m x => some (m, x)
    | _ => none)

/-! ## Properties of states -/

/-- The table is a map: no key occurs twice. -/
def TableOk (st : Server) : Prop := (fds st.clients).Nodup

/-- Every entry of `st2` was an entry of `st1` with the same inbound buffer, and with the
same name if it was named. -/
def Keeps (st1 st2 : Server) : Prop :=
  ∀ fd c2, findClient st2.clients fd = some c2 →
    ∃ c1, findClient st1.clients fd = some c1 ∧ c2.inbuf = c1.inbuf ∧
      (c1.named = true → c2.named = true ∧ c2.name = c1.name)

/-- A connection named in `st1` and still present in `st2` has the same name there. -/
def NamesKept (st1 st2 : Server) : Prop :=
  ∀ fd c1 c2, findClient st1.clients fd = some c1 → c1.named = true →
    findClient st2.clients fd = some c2 → c2.named = true ∧ c2.name = c1.name

/-- One delivery attempt of `msg` to the entry `r` in the trace `evs` of a fan-out pass:
either the queue was non-empty and `msg` was appended without a write, or the queue was
empty and `msg` was passed to exactly one `::send`. -/
def OneAttempt (msg : Bytes) (r : Client) (evs : List Event) : Prop :=
  (r.outq ≠ [] ∧ sendsTo r.fd evs = [] ∧ pushesTo r.fd evs = [msg]) ∨
  (r.outq = [] ∧ ∃ res, sendsTo r.fd evs = [(msg, res)])

/-- The interest of `c` registered in `w` is read, plus write exactly when its queue is
non-empty. -/
def InterestOk (w : World) (c : Client) : Prop :=
  ∃ i, w.epoll c.fd = some i ∧ i.readable = true ∧ (i.writable = true ↔ c.outq ≠ [])

/-- The write-interest invariant of the table. -/
def InterestInv (st : Server) : Prop := ∀ c ∈ st.clients, InterestOk st.w c

/-- Every descriptor `::accept` hands out is not in the table when it is handed out. -/
def freshScript (env : Env) : List (Int × Bool) → Server → Prop
  | [], _ => True
  | x :: rest, st => x.1 ∉ fds st.clients ∧ freshScript env rest (accept_new env [x] st)

/-- One operation of the server. -/
inductive Step (env : Env) : Server → Server → Prop where
  | accept (st : Server) (conns : List (Int × Bool)) :
      freshScript env conns st → Step env st (accept_new env conns st)
  | read (st st2 : Server) (fd : Int) (chunks : List Bytes) (fin : RecvEnd) :
      handle_read env st fd chunks fin = .ok st2 → Step env st st2
  | write (st : Server) (fd : Int) : Step env st (handle_write env st fd)
  | line (st : Server) (fd : Int) (l : Bytes) : Step env st (on_line env st fd l)
  | bcast (st : Server) (msg : Bytes) (except_fd : Int) :
      Step env st (broadcast env st msg except_fd)
  | close (st : Server) (fd : Int) : Step env st (close_client env st fd)

/-- The states reachable from the empty table. -/
inductive Reachable (env : Env) : Server → Prop where
  | init : Reachable env Server.init
  | step (st st2 : Server) : Reachable env st → Step env st st2 → Reachable env st2

/-- Removal of the trailing carriage returns of a line, as the specification words it. -/
def stripTrailingCR (s : Bytes) : Bytes := s.rdropWhile (fun ch => ch == '\r')

/-- What a direct write with result `res` leaves in the queue of a recipient whose queue was
empty. -/
def sendEffect (msg : Bytes) : SendOutcome → List Bytes → Prop
  | .accepted k, q => k ≤ msg.length ∧ q = if k = msg.length then [] else [msg.drop k]
  | .wouldBlock, q => q = [msg]
  | .fatal, q => q = []

/-- The effect of one loop iteration of the fan-out pass on a recipient. -/
def Delivered (msg : Bytes) (cl cl2 : Client) (evs : List Event) : Prop :=
  (cl.outq ≠ [] ∧ sendsTo cl.fd evs = [] ∧ pushesTo cl.fd evs = [msg] ∧
    cl2.outq = cl.outq ++ [msg]) ∨
  (cl.outq = [] ∧ ∃ res, sendsTo cl.fd evs = [(msg, res)] ∧ sendEffect msg res cl2.outq)

/-- The fields a fan-out pass never writes. -/
def SameId (c c2 : Client) : Prop :=
  c2.fd = c.fd ∧ c2.named = c.named ∧ c2.name = c.name ∧ c2.inbuf = c.inbuf

/-- A property of states that the pieces of `broadcast` and `close_client` keep: the fan-out
pass of a leave notice, the removal of an entry, and the close of an absent descriptor. -/
structure Preserved (env : Env) (P : Server → Prop) : Prop where
  fan : ∀ st name ex, P st → P (fanout env (name ++ leftSuffix) ex st).1
  rem : ∀ st fd c, findClient st.clients fd = some c → P st → P (removeClient st fd)
  abs : ∀ st fd, findClient st.clients fd = none → P st →
    P ⟨st.clients, sysClose (del_epoll st.w fd) fd⟩

/-- The events a fan-out pass and the teardowns behind it can add to the trace: no line
dispatch, and no broadcast other than a leave notice. -/
def Event.nested : Event → Prop
  | .line _ _ => False
  | .bcast m _ => ∃ name, m = name ++ leftSuffix
  | _ => True

/-- The trace of `st` extends `l0` by nested events only. -/
def LogExt (l0 : List Event) (st : Server) : Prop :=
  ∃ evs, st.w.log = l0 ++ evs ∧ ∀ e ∈ evs, e.nested

/-- The trace of `::send` calls on `fd` that each take a whole chunk of `done`. -/
def fullSends (fd : Int) (done : List Bytes) : List Event :=
  done.map (fun d => Event.send fd d (.accepted d.length))

/-- How the loop of `handle_write` stops on the chunks `rest` it has not fully sent: the
end reached, the last `::send` made, and the queue left. -/
def DrainStop (fd : Int) (rest : List Bytes) (e : DrainEnd) (tail : List Event)
    (q2 : List Bytes) : Prop :=
  (rest = [] ∧ e = .emptied ∧ tail = [] ∧ q2 = []) ∨
  (∃ front later, rest = front :: later ∧ e = .blocked ∧
    tail = [Event.send fd front .wouldBlock] ∧ q2 = front :: later) ∨
  (∃ front later k, rest = front :: later ∧ k < front.length ∧ e = .shortWrite ∧
    tail = [Event.send fd front (.accepted k)] ∧ q2 = front.drop k :: later) ∨
  (∃ front later, rest = front :: later ∧ e = .failed ∧
    tail = [Event.send fd front .fatal] ∧ q2 = front :: later)

/-- Every entry of `st2` was an entry of `st1`, with the same name if it was named. -/
def Traces (st1 st2 : Server) : Prop :=
  ∀ fd c2, findClient st2.clients fd = some c2 →
    ∃ c1, findClient st1.clients fd = some c1 ∧
      (c1.named = true → c2.named = true ∧ c2.name = c1.name)

/-- The table is a map and satisfies the write-interest invariant. -/
def Inv (st : Server) : Prop := TableOk st ∧ InterestInv st

/-- A kernel whose `epoll_ctl(EPOLL_CTL_MOD)` always fails and whose `::send` would block. -/
def modFailEnv : Env := ⟨fun _ => .wouldBlock, fun _ => true, fun _ => false⟩

/-- A kernel where every call succeeds and `::send` takes everything. -/
def okEnv : Env := ⟨fun _ => .accepted 4096, fun _ => true, fun _ => true⟩

/-- The same kernel with other results for `epoll_ctl(EPOLL_CTL_MOD)`. -/
def Env.withMod (env : Env) (m : Nat → Bool) : Env := { env with modOk := m }

/-- Two states with the same table at the same point of the run. -/
def SameTable (a b : Server) : Prop := a.clients = b.clients ∧ a.w.tick = b.w.tick

/-- Two results that both ran out of nesting bound or have the same table. -/
def OptSame : Option Server → Option Server → Prop
  | some a, some b => SameTable a b
  | none, none => True
  | _, _ => False

/-- The state of a returning `handle_read`, `d` otherwise. -/
def okOr (d : Server) : Except Fault Server → Server
  | .ok s => s
  | .error _ => d

/-- Whether a run of `handle_read` ended in a use of a destroyed entry. -/
def isUseAfterFree : Except Fault Server → Bool
  | .error .useAfterFree => true
  | _ => false

/-- A kernel whose first ten system calls succeed and whose later `::send` calls fail with
a reset connection. -/
def resetEnv : Env := ⟨fun t => if t < 10 then .accepted 4096 else .fatal, fun _ => true,
  fun _ => true⟩

/-- Two connections are accepted and their prompts are written out. -/
def twoAccepted : Server :=
  handle_write resetEnv
    (handle_write resetEnv (accept_new resetEnv [(5, true), (6, true)] Server.init) 5) 6

/-- Connection 5 has sent the name `A`. -/
def oneNamed : Server :=
  okOr twoAccepted (handle_read resetEnv twoAccepted 5 ["A\n".toList] .wouldBlock)

/-- Connection 6 has sent the name `B`: two named connections with empty queues. -/
def twoNamed : Server :=
  okOr oneNamed (handle_read resetEnv oneNamed 6 ["B\n".toList] .wouldBlock)

/-- A table of two named connections, one with a non-empty queue, and an unnamed one. -/
def demoTable : Server :=
  ⟨[⟨5, true, "A".toList, [], []⟩, ⟨6, true, "B".toList, [], ["q".toList]⟩,
    ⟨7, false, [], [], []⟩], ⟨fun _ => none, 0, []⟩⟩

instance (st : Server) : Decidable (TableOk st) :=
  inferInstanceAs (Decidable (fds st.clients).Nodup)

/-! ## The table -/

theorem findClient_fd {cs : List Client} {fd : Int} {c : Client}
    (h : findClient cs fd = some c) : c.fd = fd := by
  have := List.find?_some h
  simpa using this

theorem findClient_mem {cs : List Client} {fd : Int} {c : Client}
    (h : findClient cs fd = some c) : c ∈ cs :=
  List.mem_of_find?_eq_some h

theorem findClient_cons (c : Client) (cs : List Client) (fd : Int) :
    findClient (c :: cs) fd = if c.fd = fd then some c else findClient cs fd := by
  unfold findClient
  by_cases h : c.fd = fd <;> simp [List.find?_cons, h]

theorem findClient_none_iff {cs : List Client} {fd : Int} :
    findClient cs fd = none ↔ fd ∉ fds cs := by
  induction cs with
  | nil => simp [findClient, fds]
  | cons c cs ih =>
    rw [findClient_cons]
    by_cases h : c.fd = fd
    · simp [h, fds]
    · simp only [h, if_false, ih, fds, List.map_cons, List.mem_cons, not_or]
      constructor
      · intro h2; exact ⟨fun e => h e.symm, h2⟩
      · intro h2; exact h2.2

theorem findClient_isSome_iff {cs : List Client} {fd : Int} :
    (findClient cs fd).isSome = true ↔ fd ∈ fds cs := by
  cases h : findClient cs fd with
  | none => simpa using findClient_none_iff.mp h
  | some c =>
    simp only [Option.isSome_some, true_iff]
    by_contra hn
    rw [findClient_none_iff.mpr hn] at h
    cases h

theorem findClient_map (g : Client → Client) (hg : ∀ c, (g c).fd = c.fd)
    (cs : List Client) (fd : Int) :
    findClient (cs.map g) fd = (findClient cs fd).map g := by
  induction cs with
  | nil => rfl
  | cons c cs ih =>
    rw [List.map_cons, findClient_cons, findClient_cons, hg, ih]
    by_cases h : c.fd = fd <;> simp [h]

theorem findClient_update (cs : List Client) (fd fd2 : Int) (f : Client → Client)
    (hf : ∀ c, (f c).fd = c.fd) :
    findClient (updateClient cs fd f) fd2 =
      if fd2 = fd then (findClient cs fd2).map f else findClient cs fd2 := by
  induction cs with
  | nil => simp [updateClient, findClient]
  | cons c cs ih =>
    have ih2 : findClient (List.map (fun c => if c.fd = fd then f c else c) cs) fd2 =
        if fd2 = fd then (findClient cs fd2).map f else findClient cs fd2 := ih
    simp only [updateClient, List.map_cons]
    rw [findClient_cons, findClient_cons, ih2]
    by_cases h1 : c.fd = fd
    · by_cases h2 : fd2 = fd
      · subst h2; simp [h1, hf]
      · have : ¬ c.fd = fd2 := fun e => h2 (e ▸ h1)
        have h3 : ¬ (f c).fd = fd2 := by rw [hf]; exact this
        have h4 : ¬ fd = fd2 := fun e => h2 e.symm
        simp [h1, h2, h3, h4]
    · by_cases h2 : fd2 = fd
      · subst h2; simp [h1]
      · simp [h1, h2]

theorem findClient_erase (cs : List Client) (fd fd2 : Int) :
    findClient (eraseClient cs fd) fd2 = if fd2 = fd then none else findClient cs fd2 := by
  induction cs with
  | nil => simp [eraseClient, findClient]
  | cons c cs ih =>
    have ih2 : findClient (List.filter (fun c => decide (c.fd ≠ fd)) cs) fd2 =
        if fd2 = fd then none else findClient cs fd2 := ih
    simp only [eraseClient]
    by_cases h1 : c.fd = fd
    · rw [List.filter_cons_of_neg (by simp [h1]), ih2, findClient_cons]
      by_cases h2 : fd2 = fd
      · simp [h2]
      · have : ¬ c.fd = fd2 := fun e => h2 (e ▸ h1)
        simp [h2, this]
    · rw [List.filter_cons_of_pos (by simp [h1]), findClient_cons, findClient_cons, ih2]
      by_cases h2 : fd2 = fd
      · subst h2; simp [h1]
      · simp [h2]

theorem findClient_of_mem {cs : List Client} (hn : (fds cs).Nodup) {c : Client}
    (hc : c ∈ cs) : findClient cs c.fd = some c := by
  induction cs with
  | nil => cases hc
  | cons d cs ih =>
    rw [findClient_cons]
    simp only [fds, List.map_cons, List.nodup_cons] at hn
    rcases List.mem_cons.mp hc with h | h
    · subst h; simp
    · have hne : ¬ d.fd = c.fd := by
        intro e
        exact hn.1 (e ▸ List.mem_map_of_mem Client.fd h)
      simp only [hne, if_false]
      exact ih hn.2 h

theorem fds_map (g : Client → Client) (hg : ∀ c, (g c).fd = c.fd) (cs : List Client) :
    fds (cs.map g) = fds cs := by
  simp [fds, List.map_map, Function.comp_def, hg]

theorem fds_update (cs : List Client) (fd : Int) (f : Client → Client)
    (hf : ∀ c, (f c).fd = c.fd) : fds (updateClient cs fd f) = fds cs := by
  unfold updateClient
  apply fds_map
  intro c
  by_cases h : c.fd = fd <;> simp [h, hf]

theorem fds_erase_sublist (cs : List Client) (fd : Int) :
    (fds (eraseClient cs fd)).Sublist (fds cs) :=
  List.Sublist.map _ (List.filter_sublist cs)

theorem erase_length_lt {cs : List Client} {fd : Int} {c : Client}
    (h : findClient cs fd = some c) : (eraseClient cs fd).length < cs.length := by
  unfold eraseClient
  apply List.length_filter_lt_length_iff_exists.mpr
  exact ⟨c, findClient_mem h, by simp [findClient_fd h]⟩

/-! ## The fan-out pass -/

theorem sendsTo_append (fd : Int) (a b : List Event) :
    sendsTo fd (a ++ b) = sendsTo fd a ++ sendsTo fd b := by
  simp [sendsTo, List.filterMap_append]

theorem pushesTo_append (fd : Int) (a b : List Event) :
    pushesTo fd (a ++ b) = pushesTo fd a ++ pushesTo fd b := by
  simp [pushesTo, List.filterMap_append]

theorem sendsTo_nil_of_about {fd : Int} {evs : List Event}
    (h : ∀ e ∈ evs, e.about ≠ some fd) : sendsTo fd evs = [] := by
  induction evs with
  | nil => rfl
  | cons e evs ih =>
    have h1 := h e (List.mem_cons_self _ _)
    have h2 := ih (fun x hx => h x (List.mem_cons_of_mem _ hx))
    cases e <;> simp_all [sendsTo, Event.about]

theorem pushesTo_nil_of_about {fd : Int} {evs : List Event}
    (h : ∀ e ∈ evs, e.about ≠ some fd) : pushesTo fd evs = [] := by
  induction evs with
  | nil => rfl
  | cons e evs ih =>
    have h1 := h e (List.mem_cons_self _ _)
    have h2 := ih (fun x hx => h x (List.mem_cons_of_mem _ hx))
    cases e <;> simp_all [pushesTo, Event.about]

theorem visit_fields (env : Env) (msg : Bytes) (ex : Int) (cl : Client) (w : World) :
    (visit env msg ex cl w).1.fd = cl.fd ∧ (visit env msg ex cl w).1.named = cl.named ∧
    (visit env msg ex cl w).1.name = cl.name ∧ (visit env msg ex cl w).1.inbuf = cl.inbuf := by
  unfold visit
  by_cases h1 : cl.fd = ex
  · simp [h1]
  · by_cases h2 : cl.outq.isEmpty = true
    · simp only [h1, h2, if_false, if_true, World.send]
      cases env.send w.tick with
      | accepted k =>
        simp only [sysSend]
        split_ifs <;> simp
      | wouldBlock => simp [sysSend]
      | fatal => simp [sysSend]
    · simp [h1, h2]

theorem visit_self (env : Env) (msg : Bytes) (cl : Client) (w : World) :
    visit env msg cl.fd cl w = (cl, w, []) := by
  simp [visit]

theorem visit_trace (env : Env) (msg : Bytes) (ex : Int) (cl : Client) (w : World)
    (hx : cl.fd ≠ ex) :
    ∃ evs, (visit env msg ex cl w).2.1.log = w.log ++ evs ∧
      (∀ e ∈ evs, e.about = some cl.fd) ∧ Delivered msg cl (visit env msg ex cl w).1 evs := by
  unfold visit
  by_cases h2 : cl.outq = []
  · simp only [hx, h2, if_false, List.isEmpty_nil, if_true, World.send]
    cases env.send w.tick with
    | accepted k =>
      simp only [sysSend]
      by_cases h3 : min k msg.length = msg.length
      · refine ⟨[Event.send cl.fd msg (.accepted (min k msg.length))], ?_, ?_, ?_⟩
        · simp [h3]
        · simp [Event.about]
        · right
          refine ⟨h2, .accepted (min k msg.length), ?_, ?_⟩
          · simp [sendsTo]
          · simp [sendEffect, h3, h2]
      · have h4 : min k msg.length < msg.length :=
          lt_of_le_of_ne (Nat.min_le_right _ _) h3
        refine ⟨[Event.send cl.fd msg (.accepted (min k msg.length)),
          Event.push cl.fd (msg.drop (min k msg.length)),
          Event.modify cl.fd EPOLLIN_OUT_ET (env.modOk (w.tick + 1))], ?_, ?_, ?_⟩
        · simp [h3, h4, mod_epoll, World.push]
        · simp [Event.about]
        · right
          refine ⟨h2, .accepted (min k msg.length), ?_, ?_⟩
          · simp [sendsTo]
          · simp [sendEffect, h3, h4]
    | wouldBlock =>
      refine ⟨[Event.send cl.fd msg .wouldBlock, Event.push cl.fd msg,
          Event.modify cl.fd EPOLLIN_OUT_ET (env.modOk (w.tick + 1))], ?_, ?_, ?_⟩
      · simp [sysSend, mod_epoll, World.push]
      · simp [Event.about]
      · right
        refine ⟨h2, .wouldBlock, ?_, ?_⟩
        · simp [sendsTo]
        · simp [sendEffect, sysSend]
    | fatal =>
      refine ⟨[Event.send cl.fd msg .fatal], ?_, ?_, ?_⟩
      · simp [sysSend]
      · simp [Event.about]
      · right
        refine ⟨h2, .fatal, ?_, ?_⟩
        · simp [sendsTo]
        · simp [sendEffect, sysSend, h2]
  · have h3 : cl.outq.isEmpty = false := by
      cases h : cl.outq with
      | nil => exact absurd h h2
      | cons a b => rfl
    simp only [hx, h3, if_false]
    refine ⟨[Event.push cl.fd msg, Event.modify cl.fd EPOLLIN_OUT_ET (env.modOk w.tick)],
      ?_, ?_, ?_⟩
    · simp [mod_epoll, World.push]
    · simp [Event.about]
    · left
      refine ⟨h2, ?_, ?_, ?_⟩
      · simp [sendsTo]
      · simp [pushesTo]
      · simp

theorem Delivered_append_right {msg : Bytes} {cl c2 : Client} {evs1 evs2 : List Event}
    (h : Delivered msg cl c2 evs1) (h2 : ∀ e ∈ evs2, e.about ≠ some cl.fd) :
    Delivered msg cl c2 (evs1 ++ evs2) := by
  unfold Delivered at *
  rw [sendsTo_append, pushesTo_append, sendsTo_nil_of_about h2, pushesTo_nil_of_about h2]
  simpa using h

theorem Delivered_append_left {msg : Bytes} {cl c2 : Client} {evs1 evs2 : List Event}
    (h : Delivered msg cl c2 evs2) (h2 : ∀ e ∈ evs1, e.about ≠ some cl.fd) :
    Delivered msg cl c2 (evs1 ++ evs2) := by
  unfold Delivered at *
  rw [sendsTo_append, pushesTo_append, sendsTo_nil_of_about h2, pushesTo_nil_of_about h2]
  simpa using h

theorem fanoutList_same (env : Env) (msg : Bytes) (ex : Int) (cs : List Client) (w : World) :
    List.Forall₂ SameId cs (fanoutList env msg ex cs w).1 := by
  induction cs generalizing w with
  | nil => exact List.Forall₂.nil
  | cons cl rest ih =>
    simp only [fanoutList]
    exact List.Forall₂.cons (visit_fields env msg ex cl w) (ih _)

theorem fds_of_same {cs cs2 : List Client} (h : List.Forall₂ SameId cs cs2) :
    fds cs2 = fds cs := by
  induction h with
  | nil => rfl
  | cons h1 _ ih =>
    simp only [fds, List.map_cons] at ih ⊢
    rw [ih, h1.1]

theorem find_of_same {cs cs2 : List Client} (h : List.Forall₂ SameId cs cs2) (fd : Int) :
    (findClient cs fd = none ∧ findClient cs2 fd = none) ∨
    ∃ c c2, findClient cs fd = some c ∧ findClient cs2 fd = some c2 ∧ SameId c c2 := by
  induction h with
  | nil => left; exact ⟨rfl, rfl⟩
  | @cons a b l1 l2 h1 _ ih =>
    rw [findClient_cons, findClient_cons, h1.1]
    by_cases hfd : a.fd = fd
    · right; exact ⟨a, b, by simp [hfd], by simp [hfd], h1⟩
    · simpa [hfd] using ih

theorem fanoutList_fds (env : Env) (msg : Bytes) (ex : Int) (cs : List Client) (w : World) :
    fds (fanoutList env msg ex cs w).1 = fds cs :=
  fds_of_same (fanoutList_same env msg ex cs w)

theorem fanoutList_length (env : Env) (msg : Bytes) (ex : Int) (cs : List Client) (w : World) :
    (fanoutList env msg ex cs w).1.length = cs.length :=
  (List.Forall₂.length_eq (fanoutList_same env msg ex cs w)).symm

theorem fanoutList_trace (env : Env) (msg : Bytes) (ex : Int) (cs : List Client) (w : World)
    (hn : (fds cs).Nodup) :
    ∃ evs, (fanoutList env msg ex cs w).2.1.log = w.log ++ evs ∧
      (∀ e ∈ evs, ∃ c ∈ cs, c.fd ≠ ex ∧ e.about = some c.fd) ∧
      ∀ c ∈ cs, ∃ c2, findClient (fanoutList env msg ex cs w).1 c.fd = some c2 ∧
        (c.fd = ex → c2 = c) ∧ (c.fd ≠ ex → Delivered msg c c2 evs) := by
  induction cs generalizing w with
  | nil => exact ⟨[], by simp [fanoutList], by simp, by simp⟩
  | cons cl rest ih =>
    simp only [fds, List.map_cons, List.nodup_cons] at hn
    obtain ⟨evs2, hlog2, hab2, hall2⟩ := ih (visit env msg ex cl w).2.1 hn.2
    have hfd := (visit_fields env msg ex cl w).1
    have hrest : ∀ e ∈ evs2, e.about ≠ some cl.fd := by
      intro e he hc
      obtain ⟨c, hc1, _, hc3⟩ := hab2 e he
      rw [hc3] at hc
      injection hc with hc
      exact hn.1 (hc ▸ List.mem_map_of_mem Client.fd hc1)
    have key : ∃ evs1, (visit env msg ex cl w).2.1.log = w.log ++ evs1 ∧
        (∀ e ∈ evs1, cl.fd ≠ ex ∧ e.about = some cl.fd) ∧
        (cl.fd = ex → (visit env msg ex cl w).1 = cl) ∧
        (cl.fd ≠ ex → Delivered msg cl (visit env msg ex cl w).1 evs1) := by
      by_cases hx : cl.fd = ex
      · subst hx
        rw [visit_self]
        exact ⟨[], by simp, by simp, fun _ => rfl, fun h => absurd rfl h⟩
      · obtain ⟨evs1, h1, h2, h3⟩ := visit_trace env msg ex cl w hx
        exact ⟨evs1, h1, fun e he => ⟨hx, h2 e he⟩, fun h => absurd h hx, fun _ => h3⟩
    obtain ⟨evs1, hlog1, hab1, hself, hdel⟩ := key
    refine ⟨evs1 ++ evs2, ?_, ?_, ?_⟩
    · simp only [fanoutList]
      rw [hlog2, hlog1, List.append_assoc]
    · intro e he
      rcases List.mem_append.mp he with h | h
      · exact ⟨cl, List.mem_cons_self _ _, (hab1 e h).1, (hab1 e h).2⟩
      · obtain ⟨c, hc1, hc2, hc3⟩ := hab2 e h
        exact ⟨c, List.mem_cons_of_mem _ hc1, hc2, hc3⟩
    · intro c hc
      simp only [fanoutList]
      rw [findClient_cons, hfd]
      rcases List.mem_cons.mp hc with h | h
      · subst h
        refine ⟨(visit env msg ex c w).1, by simp, hself, fun hx => ?_⟩
        exact Delivered_append_right (hdel hx) hrest
      · have hne : ¬ cl.fd = c.fd := by
          intro e
          exact hn.1 (e ▸ List.mem_map_of_mem Client.fd h)
        obtain ⟨c2, hf, hs, hd⟩ := hall2 c h
        refine ⟨c2, by simpa [hne] using hf, hs, fun hx => ?_⟩
        refine Delivered_append_left (hd hx) ?_
        intro e he hc2
        rw [(hab1 e he).2] at hc2
        injection hc2 with hc2
        exact hne hc2

/-! ## Broadcast and teardown: the nesting bound is enough -/

theorem fanout_length (env : Env) (msg : Bytes) (ex : Int) (st : Server) :
    (fanout env msg ex st).1.clients.length = st.clients.length := by
  simp [fanout, fanoutList_length]

theorem fanout_fds (env : Env) (msg : Bytes) (ex : Int) (st : Server) :
    fds (fanout env msg ex st).1.clients = fds st.clients := by
  simp [fanout, fanoutList_fds]

theorem closeAllWith_nil (bc : Server → Bytes → Int → Option Server) (st : Server) :
    closeAllWith bc [] st = some st := rfl

theorem closeAllWith_cons (bc : Server → Bytes → Int → Option Server) (fd : Int)
    (tc : List Int) (st : Server) :
    closeAllWith bc (fd :: tc) st = (closeWith bc st fd).bind (closeAllWith bc tc) := by
  unfold closeAllWith
  simp only [List.foldl_cons, Option.some_bind]
  cases closeWith bc st fd with
  | some s => rfl
  | none =>
    simp only [Option.none_bind]
    induction tc with
    | nil => rfl
    | cons a l ih => simpa using ih

theorem closeAllWith_induct (bc : Server → Bytes → Int → Option Server) (P : Server → Prop)
    (hbc : ∀ st name fd st2, P st → bc st (name ++ leftSuffix) fd = some st2 → P st2)
    (hrem : ∀ st fd c, findClient st.clients fd = some c → P st → P (removeClient st fd))
    (habs : ∀ st fd, findClient st.clients fd = none → P st →
      P ⟨st.clients, sysClose (del_epoll st.w fd) fd⟩) :
    ∀ tc st st2, P st → closeAllWith bc tc st = some st2 → P st2 := by
  intro tc
  induction tc with
  | nil =>
    intro st st2 hP h
    rw [closeAllWith_nil] at h
    injection h with h
    exact h ▸ hP
  | cons fd tc ih =>
    intro st st2 hP h
    rw [closeAllWith_cons] at h
    cases h1 : closeWith bc st fd with
    | none => rw [h1] at h; cases h
    | some s =>
      rw [h1] at h
      refine ih s st2 ?_ h
      unfold closeWith at h1
      cases h2 : findClient st.clients fd with
      | none =>
        rw [h2] at h1
        injection h1 with h1
        exact h1 ▸ habs st fd h2 hP
      | some c =>
        rw [h2] at h1
        by_cases hnm : c.named = true
        · simp only [hnm, if_true] at h1
          exact hbc _ _ _ _ (hrem st fd c h2 hP) h1
        · simp only [hnm] at h1
          injection h1 with h1
          exact h1 ▸ hrem st fd c h2 hP

theorem broadcastF_induct (env : Env) (P : Server → Prop)
    (hfan : ∀ st name ex, P st → P (fanout env (name ++ leftSuffix) ex st).1)
    (hrem : ∀ st fd c, findClient st.clients fd = some c → P st → P (removeClient st fd))
    (habs : ∀ st fd, findClient st.clients fd = none → P st →
      P ⟨st.clients, sysClose (del_epoll st.w fd) fd⟩) :
    ∀ n st name fd st2, P st → broadcastF env n st (name ++ leftSuffix) fd = some st2 → P st2 := by
  intro n
  induction n with
  | zero => intro st name fd st2 _ h; cases h
  | succ n ih =>
    intro st name fd st2 hP h
    simp only [broadcastF] at h
    exact closeAllWith_induct (broadcastF env n) P ih hrem habs _ _ _ (hfan st name fd hP) h

theorem closeAllWith_total (bc : Server → Bytes → Int → Option Server) (N : Nat)
    (hbc : ∀ st msg fd, st.clients.length < N →
      ∃ st2, bc st msg fd = some st2 ∧ st2.clients.length ≤ st.clients.length) :
    ∀ tc st, st.clients.length ≤ N →
      ∃ st2, closeAllWith bc tc st = some st2 ∧ st2.clients.length ≤ st.clients.length := by
  intro tc
  induction tc with
  | nil => intro st _; exact ⟨st, rfl, le_refl _⟩
  | cons fd tc ih =>
    intro st hN
    rw [closeAllWith_cons]
    have step : ∃ s, closeWith bc st fd = some s ∧ s.clients.length ≤ st.clients.length := by
      unfold closeWith
      cases h2 : findClient st.clients fd with
      | none => exact ⟨_, rfl, le_refl _⟩
      | some c =>
        have hlt : (removeClient st fd).clients.length < st.clients.length :=
          erase_length_lt h2
        by_cases hnm : c.named = true
        · simp only [hnm, if_true]
          obtain ⟨s, hs1, hs2⟩ := hbc (removeClient st fd) (c.name ++ leftSuffix) fd
            (lt_of_lt_of_le hlt hN)
          exact ⟨s, hs1, le_trans hs2 (le_of_lt hlt)⟩
        · simp only [hnm]
          exact ⟨_, rfl, le_of_lt hlt⟩
    obtain ⟨s, hs1, hs2⟩ := step
    obtain ⟨s2, hs3, hs4⟩ := ih s (le_trans hs2 hN)
    exact ⟨s2, by rw [hs1]; exact hs3, le_trans hs4 hs2⟩

theorem broadcastF_total (env : Env) :
    ∀ n st msg ex, st.clients.length < n →
      ∃ st2, broadcastF env n st msg ex = some st2 ∧
        st2.clients.length ≤ st.clients.length := by
  intro n
  induction n with
  | zero => intro st msg ex h; exact absurd h (Nat.not_lt_zero _)
  | succ n ih =>
    intro st msg ex h
    simp only [broadcastF]
    have hl := fanout_length env msg ex st
    obtain ⟨s, hs1, hs2⟩ := closeAllWith_total (broadcastF env n) n (ih) (fanout env msg ex st).2
      (fanout env msg ex st).1 (by rw [hl]; exact Nat.lt_succ_iff.mp h)
    exact ⟨s, hs1, by rw [hl] at hs2; exact hs2⟩

/-- The bound used by `broadcast` is never reached. -/
theorem broadcastF_adequate (env : Env) (st : Server) (msg : Bytes) (ex : Int) :
    broadcastF env (st.clients.length + 1) st msg ex = some (broadcast env st msg ex) := by
  obtain ⟨s, hs, _⟩ := broadcastF_total env (st.clients.length + 1) st msg ex (Nat.lt_succ_self _)
  simp [broadcast, hs]

/-- The bound used by the teardown loop is never reached. -/
theorem closeAll_adequate (env : Env) (tc : List Int) (st : Server) :
    closeAllWith (broadcastF env st.clients.length) tc st = some (closeAll env tc st) := by
  obtain ⟨s, hs, _⟩ := closeAllWith_total (broadcastF env st.clients.length) st.clients.length
    (broadcastF_total env _) tc st (le_refl _)
  simp [closeAll, hs]

/-- The bound used by `close_client` is never reached. -/
theorem close_client_adequate (env : Env) (st : Server) (fd : Int) :
    closeWith (broadcastF env st.clients.length) st fd = some (close_client env st fd) := by
  have h := closeAll_adequate env [fd] st
  rw [closeAllWith_cons] at h
  cases h1 : closeWith (broadcastF env st.clients.length) st fd with
  | none => rw [h1] at h; cases h
  | some s => simp [close_client, h1]

/-- The function `broadcast` is its fan-out pass followed by the deferred teardowns. -/
theorem broadcast_unfold (env : Env) (st : Server) (msg : Bytes) (ex : Int) :
    broadcast env st msg ex = closeAll env (fanout env msg ex st).2 (fanout env msg ex st).1 := by
  have h1 := broadcastF_adequate env st msg ex
  have h2 := closeAll_adequate env (fanout env msg ex st).2 (fanout env msg ex st).1
  rw [fanout_length] at h2
  simp only [broadcastF] at h1
  rw [h1] at h2
  injection h2

/-! ## Invariance principles -/

theorem closeAll_preserves {env : Env} {P : Server → Prop} (hp : Preserved env P)
    (tc : List Int) (st : Server) (h : P st) : P (closeAll env tc st) :=
  closeAllWith_induct _ P (broadcastF_induct env P hp.fan hp.rem hp.abs _) hp.rem hp.abs
    tc st _ h (closeAll_adequate env tc st)

theorem broadcast_preserves {env : Env} {P : Server → Prop} (hp : Preserved env P)
    (st : Server) (msg : Bytes) (ex : Int) (h : P (fanout env msg ex st).1) :
    P (broadcast env st msg ex) := by
  rw [broadcast_unfold]
  exact closeAll_preserves hp _ _ h

theorem close_client_preserves {env : Env} {P : Server → Prop} (hp : Preserved env P)
    (st : Server) (fd : Int) (h : P st) : P (close_client env st fd) := by
  have h1 := close_client_adequate env st fd
  have h2 : closeAllWith (broadcastF env st.clients.length) [fd] st =
      some (close_client env st fd) := by
    rw [closeAllWith_cons, h1]; rfl
  exact closeAllWith_induct _ P (broadcastF_induct env P hp.fan hp.rem hp.abs _) hp.rem hp.abs
    _ _ _ h h2

theorem Keeps_refl (st : Server) : Keeps st st := by
  intro fd c2 h
  exact ⟨c2, h, rfl, fun _ => ⟨by assumption, rfl⟩⟩

theorem Keeps_trans {a b c : Server} (h1 : Keeps a b) (h2 : Keeps b c) : Keeps a c := by
  intro fd c3 h
  obtain ⟨c2, hb, hi2, hn2⟩ := h2 fd c3 h
  obtain ⟨c1, ha, hi1, hn1⟩ := h1 fd c2 hb
  refine ⟨c1, ha, hi2.trans hi1, fun hn => ?_⟩
  obtain ⟨x, y⟩ := hn1 hn
  obtain ⟨x2, y2⟩ := hn2 x
  exact ⟨x2, y2.trans y⟩

theorem Keeps_fanout (env : Env) (msg : Bytes) (ex : Int) (st : Server) :
    Keeps st (fanout env msg ex st).1 := by
  intro fd c2 h
  rcases find_of_same (fanoutList_same env msg ex st.clients
    (st.w.note (Event.bcast msg ex))) fd with h1 | ⟨c, c3, h1, h2, h3⟩
  · simp only [fanout] at h
    rw [h1.2] at h; cases h
  · simp only [fanout] at h
    rw [h2] at h
    injection h with h
    subst h
    exact ⟨c, h1, h3.2.2.2, fun hn => ⟨by rw [h3.2.1]; exact hn, h3.2.2.1⟩⟩

theorem Keeps_remove (st : Server) (fd : Int) : Keeps st (removeClient st fd) := by
  intro fd2 c2 h
  simp only [removeClient] at h
  rw [findClient_erase] at h
  by_cases h2 : fd2 = fd
  · simp [h2] at h
  · simp only [h2, if_false] at h
    exact ⟨c2, h, rfl, fun hn => ⟨hn, rfl⟩⟩

theorem Keeps_preserved (env : Env) (st0 : Server) : Preserved env (Keeps st0) where
  fan := fun st _ ex h => Keeps_trans h (Keeps_fanout env _ ex st)
  rem := fun st fd _ _ h => Keeps_trans h (Keeps_remove st fd)
  abs := fun _ _ _ h => h

theorem Keeps_broadcast (env : Env) (st : Server) (msg : Bytes) (ex : Int) :
    Keeps st (broadcast env st msg ex) :=
  broadcast_preserves (Keeps_preserved env st) st msg ex (Keeps_fanout env msg ex st)

theorem Keeps_close_client (env : Env) (st : Server) (fd : Int) :
    Keeps st (close_client env st fd) :=
  close_client_preserves (Keeps_preserved env st) st fd (Keeps_refl st)

theorem Keeps_update (st : Server) (fd : Int) (f : Client → Client) (w : World)
    (hf : ∀ c, (f c).fd = c.fd ∧ (f c).inbuf = c.inbuf ∧
      (c.named = true → (f c).named = true ∧ (f c).name = c.name)) :
    Keeps st ⟨updateClient st.clients fd f, w⟩ := by
  intro fd2 c2 h
  simp only at h
  rw [findClient_update _ _ _ _ (fun c => (hf c).1)] at h
  by_cases h2 : fd2 = fd
  · simp only [h2, if_true] at h
    cases h3 : findClient st.clients fd with
    | none => rw [h3] at h; cases h
    | some c =>
      rw [h3] at h
      simp only [Option.map_some'] at h
      injection h with h
      subst h
      exact ⟨c, by rw [h2]; exact h3, (hf c).2.1, (hf c).2.2⟩
  · simp only [h2, if_false] at h
    exact ⟨c2, h, rfl, fun hn => ⟨hn, rfl⟩⟩

theorem Keeps_on_line (env : Env) (st : Server) (fd : Int) (line : Bytes) :
    Keeps st (on_line env st fd line) := by
  unfold on_line
  cases hc : findClient st.clients fd with
  | none => exact Keeps_refl st
  | some c =>
    simp only
    by_cases hn : c.named = true
    · simp only [hn, Bool.not_true, Bool.false_eq_true, if_false]
      exact Keeps_broadcast env st _ _
    · have hn2 : c.named = false := by simpa using hn
      simp only [hn2, Bool.not_false, if_true]
      by_cases he : (trim_newlines line).isEmpty = true
      · simp only [he, if_true]
        exact Keeps_update st fd _ _ (fun c => ⟨rfl, rfl, fun h => ⟨h, rfl⟩⟩)
      · simp only [he]
        refine Keeps_trans ?_ (Keeps_broadcast env _ _ _)
        intro fd2 c2 h
        simp only at h
        rw [findClient_update st.clients fd fd2
          (fun x => { x with named := true, name := trim_newlines line }) (fun _ => rfl)] at h
        by_cases h2 : fd2 = fd
        · simp only [h2, if_true, hc, Option.map_some'] at h
          injection h with h
          subst h
          exact ⟨c, by rw [h2]; exact hc, rfl, fun h => by rw [hn2] at h; cases h⟩
        · simp only [h2, if_false] at h
          exact ⟨c2, h, rfl, fun hn => ⟨hn, rfl⟩⟩

/-! ## Fan-out: self-exclusion and conservation -/

theorem Delivered.oneAttempt {msg : Bytes} {r r2 : Client} {evs : List Event}
    (h : Delivered msg r r2 evs) : OneAttempt msg r evs := by
  rcases h with ⟨h1, h2, h3, _⟩ | ⟨h1, res, h2, _⟩
  · exact Or.inl ⟨h1, h2, h3⟩
  · exact Or.inr ⟨h1, res, h2⟩

theorem fanout_trace (env : Env) (msg : Bytes) (ex : Int) (st : Server) (hok : TableOk st) :
    ∃ evs, (fanout env msg ex st).1.w.log = st.w.log ++ Event.bcast msg ex :: evs ∧
      (∀ e ∈ evs, ∃ c ∈ st.clients, c.fd ≠ ex ∧ e.about = some c.fd) ∧
      ∀ c ∈ st.clients, ∃ c2, findClient (fanout env msg ex st).1.clients c.fd = some c2 ∧
        (c.fd = ex → c2 = c) ∧ (c.fd ≠ ex → Delivered msg c c2 evs) := by
  obtain ⟨evs, h1, h2, h3⟩ := fanoutList_trace env msg ex st.clients
    (st.w.note (Event.bcast msg ex)) hok
  refine ⟨evs, ?_, h2, h3⟩
  show (fanoutList env msg ex st.clients (st.w.note (Event.bcast msg ex))).2.1.log = _
  rw [h1]
  simp [World.note]

theorem no_sends_to_excluded {ex : Int} {cs : List Client} {evs : List Event}
    (h : ∀ e ∈ evs, ∃ c ∈ cs, c.fd ≠ ex ∧ e.about = some c.fd) :
    sendsTo ex evs = [] ∧ pushesTo ex evs = [] := by
  have h2 : ∀ e ∈ evs, e.about ≠ some ex := by
    intro e he hc
    obtain ⟨c, _, hc2, hc3⟩ := h e he
    rw [hc3] at hc
    injection hc with hc
    exact hc2 hc
  exact ⟨sendsTo_nil_of_about h2, pushesTo_nil_of_about h2⟩

/-- C2. Chat fan-out with self-exclusion: for a named connection `c` with key `fd`,
`on_line` is one fan-out pass of `name ++ ": " ++ L ++ "\n"` followed by the deferred
teardowns; in the trace of that pass every other connection of the table has exactly one
delivery attempt (one `::send` of the message, or one append to its non-empty queue), no
`::send` and no append concerns `fd`, and the entry of `c` is unchanged by the pass. -/
theorem chat_fanout_excludes_sender (env : Env) (st : Server) (fd : Int) (c : Client)
    (L : Bytes) (hok : TableOk st) (hc : findClient st.clients fd = some c)
    (hn : c.named = true) :
    on_line env st fd L =
      closeAll env (fanout env (c.name ++ ": ".toList ++ L ++ "\n".toList) fd st).2
        (fanout env (c.name ++ ": ".toList ++ L ++ "\n".toList) fd st).1 ∧
    ∃ evs,
      (fanout env (c.name ++ ": ".toList ++ L ++ "\n".toList) fd st).1.w.log =
        st.w.log ++ Event.bcast (c.name ++ ": ".toList ++ L ++ "\n".toList) fd :: evs ∧
      (∀ r ∈ st.clients, r.fd ≠ fd →
        OneAttempt (c.name ++ ": ".toList ++ L ++ "\n".toList) r evs) ∧
      sendsTo fd evs = [] ∧ pushesTo fd evs = [] ∧
      findClient (fanout env (c.name ++ ": ".toList ++ L ++ "\n".toList) fd st).1.clients fd =
        some c := by
  have hfd := findClient_fd hc
  constructor
  · unfold on_line
    simp only [hc, hn, Bool.not_true, Bool.false_eq_true, if_false, hfd]
    exact broadcast_unfold env st _ fd
  · obtain ⟨evs, h1, h2, h3⟩ :=
      fanout_trace env (c.name ++ ": ".toList ++ L ++ "\n".toList) fd st hok
    refine ⟨evs, h1, ?_, (no_sends_to_excluded h2).1, (no_sends_to_excluded h2).2, ?_⟩
    · intro r hr hx
      obtain ⟨r2, _, _, hd⟩ := h3 r hr
      exact (hd hx).oneAttempt
    · obtain ⟨c2, hf, hs, _⟩ := h3 c (findClient_mem hc)
      rw [hfd] at hf hs
      rw [hf, hs rfl]

/-- C4. Broadcast conserves each recipient's byte stream: in the fan-out pass of
`broadcast(msg, except)`, for a recipient `r` other than the excluded handle whose write
did not fail fatally, the bytes written to `r` in the pass followed by its queue afterwards
are its queue before followed by `msg`.  When the queue was non-empty nothing is written
and `msg` becomes the last entry; when it was empty the message is passed to one `::send`,
and if that took only `k < |msg|` bytes the queue becomes the single entry `msg` without
its first `k` bytes. -/
theorem broadcast_conserves_stream (env : Env) (st : Server) (msg : Bytes) (ex : Int)
    (r : Client) (hok : TableOk st) (hr : r ∈ st.clients) (hx : r.fd ≠ ex) :
    ∃ evs r2,
      (fanout env msg ex st).1.w.log = st.w.log ++ Event.bcast msg ex :: evs ∧
      findClient (fanout env msg ex st).1.clients r.fd = some r2 ∧
      ((∀ d, (d, SendOutcome.fatal) ∉ sendsTo r.fd evs) →
        writtenTo r.fd evs ++ r2.outq.flatten = r.outq.flatten ++ msg) ∧
      (r.outq ≠ [] → sendsTo r.fd evs = [] ∧ r2.outq = r.outq ++ [msg]) ∧
      (r.outq = [] → ∃ res, sendsTo r.fd evs = [(msg, res)]) ∧
      (r.outq = [] → ∀ k, k < msg.length →
        sendsTo r.fd evs = [(msg, SendOutcome.accepted k)] → r2.outq = [msg.drop k]) := by
  obtain ⟨evs, h1, _, h3⟩ := fanout_trace env msg ex st hok
  obtain ⟨r2, hf, _, hd⟩ := h3 r hr
  refine ⟨evs, r2, h1, hf, ?_, ?_, ?_, ?_⟩
  · intro hnf
    rcases hd hx with ⟨_, e2, _, e4⟩ | ⟨e1, res, e2, e3⟩
    · simp [writtenTo, e2, e4]
    · cases res with
      | accepted k =>
        obtain ⟨hk, hq⟩ := e3
        by_cases hkl : k = msg.length
        · simp [writtenTo, e2, acceptedBytes, hq, hkl, e1]
        · simp [writtenTo, e2, acceptedBytes, hq, hkl, e1]
      | wouldBlock =>
        have hq : r2.outq = [msg] := e3
        simp [writtenTo, e2, acceptedBytes, hq, e1]
      | fatal =>
        exact absurd (by rw [e2]; exact List.mem_singleton_self _) (hnf msg)
  · intro hne
    rcases hd hx with ⟨_, e2, _, e4⟩ | ⟨e1, _⟩
    · exact ⟨e2, e4⟩
    · exact absurd e1 hne
  · intro he
    rcases hd hx with ⟨e0, _⟩ | ⟨_, res, e2, _⟩
    · exact absurd he e0
    · exact ⟨res, e2⟩
  · intro he k hk hs
    rcases hd hx with ⟨e0, _⟩ | ⟨_, res, e2, e3⟩
    · exact absurd he e0
    · rw [e2] at hs
      simp only [List.cons.injEq, Prod.mk.injEq, true_and, and_true] at hs
      subst hs
      obtain ⟨_, hq⟩ := e3
      rw [hq, if_neg (Nat.ne_of_lt hk)]

/-! ## Teardown -/

theorem closeAllWith_mono (bc bc2 : Server → Bytes → Int → Option Server)
    (h : ∀ st msg fd s, bc st msg fd = some s → bc2 st msg fd = some s) :
    ∀ tc st s, closeAllWith bc tc st = some s → closeAllWith bc2 tc st = some s := by
  intro tc
  induction tc with
  | nil => intro st s hs; exact hs
  | cons fd tc ih =>
    intro st s hs
    rw [closeAllWith_cons] at hs ⊢
    cases h1 : closeWith bc st fd with
    | none => rw [h1] at hs; cases hs
    | some s1 =>
      rw [h1] at hs
      have h2 : closeWith bc2 st fd = some s1 := by
        unfold closeWith at h1 ⊢
        cases h3 : findClient st.clients fd with
        | none => rw [h3] at h1; exact h1
        | some c =>
          rw [h3] at h1
          by_cases hnm : c.named = true
          · simp only [hnm, if_true] at h1 ⊢
            exact h _ _ _ _ h1
          · simp only [hnm] at h1 ⊢
            exact h1
      rw [h2]
      exact ih s1 s hs

theorem broadcastF_mono (env : Env) :
    ∀ n m st msg fd s, n ≤ m → broadcastF env n st msg fd = some s →
      broadcastF env m st msg fd = some s := by
  intro n
  induction n with
  | zero => intro m st msg fd s _ h; cases h
  | succ n ih =>
    intro m st msg fd s hle h
    cases m with
    | zero => exact absurd hle (Nat.not_succ_le_zero _)
    | succ m =>
      simp only [broadcastF] at h ⊢
      exact closeAllWith_mono _ _
        (fun st2 msg2 fd2 s2 h2 => ih m st2 msg2 fd2 s2 (Nat.le_of_succ_le_succ hle) h2) _ _ _ h

theorem close_client_absent (env : Env) (st : Server) (fd : Int)
    (h : findClient st.clients fd = none) :
    close_client env st fd = ⟨st.clients, sysClose (del_epoll st.w fd) fd⟩ := by
  simp [close_client, closeWith, h]

theorem close_client_unnamed (env : Env) (st : Server) (fd : Int) (c : Client)
    (h : findClient st.clients fd = some c) (hn : c.named = false) :
    close_client env st fd = removeClient st fd := by
  simp [close_client, closeWith, h, hn]

theorem close_client_named (env : Env) (st : Server) (fd : Int) (c : Client)
    (h : findClient st.clients fd = some c) (hn : c.named = true) :
    close_client env st fd = broadcast env (removeClient st fd) (c.name ++ leftSuffix) fd := by
  have h1 := close_client_adequate env st fd
  simp only [closeWith, h, hn, if_true] at h1
  have h2 := broadcastF_adequate env (removeClient st fd) (c.name ++ leftSuffix) fd
  have hlt : (removeClient st fd).clients.length + 1 ≤ st.clients.length :=
    erase_length_lt h
  have h3 := broadcastF_mono env _ _ _ _ _ _ hlt h2
  rw [h1] at h3
  injection h3

theorem TableOk_remove {st : Server} (h : TableOk st) (fd : Int) :
    TableOk (removeClient st fd) :=
  List.Nodup.sublist (fds_erase_sublist st.clients fd) h

theorem not_mem_of_Keeps {a b : Server} (h : Keeps a b) {fd : Int}
    (hfd : fd ∉ fds a.clients) : fd ∉ fds b.clients := by
  intro hb
  cases h2 : findClient b.clients fd with
  | none => exact findClient_none_iff.mp h2 hb
  | some c2 =>
    obtain ⟨c1, h3, _⟩ := h fd c2 h2
    rw [findClient_none_iff.mpr hfd] at h3
    cases h3

theorem not_mem_remove (st : Server) (fd : Int) : fd ∉ fds (removeClient st fd).clients := by
  apply findClient_none_iff.mp
  simp [removeClient, findClient_erase]

/-- C3. Leave-notice gating: `close_client(fd)` on a present handle removes it from the
table.  If the connection was unnamed nothing else happens: the table is the old one
without `fd`, every other entry is untouched and the trace gains only the close itself (no
broadcast, no write, no append).  If it was named with name `n`, the call is one fan-out
pass of `n ++ " has left the chat.\n"` over the table after the removal, followed by the
deferred teardowns, and in that pass every remaining connection has exactly one delivery
attempt. -/
theorem leave_notice_gating (env : Env) (st : Server) (fd : Int) (c : Client)
    (hok : TableOk st) (hc : findClient st.clients fd = some c) :
    fd ∉ fds (close_client env st fd).clients ∧
    (c.named = false →
      (close_client env st fd).clients = eraseClient st.clients fd ∧
      (close_client env st fd).w.log = st.w.log ++ [Event.closed fd] ∧
      ∀ fd2, fd2 ≠ fd →
        findClient (close_client env st fd).clients fd2 = findClient st.clients fd2) ∧
    (c.named = true →
      close_client env st fd =
        closeAll env (fanout env (c.name ++ leftSuffix) fd (removeClient st fd)).2
          (fanout env (c.name ++ leftSuffix) fd (removeClient st fd)).1 ∧
      ∃ evs,
        (fanout env (c.name ++ leftSuffix) fd (removeClient st fd)).1.w.log =
          st.w.log ++ Event.closed fd :: Event.bcast (c.name ++ leftSuffix) fd :: evs ∧
        ∀ r ∈ eraseClient st.clients fd, OneAttempt (c.name ++ leftSuffix) r evs) := by
  refine ⟨?_, ?_, ?_⟩
  · by_cases hn : c.named = true
    · rw [close_client_named env st fd c hc hn]
      exact not_mem_of_Keeps (Keeps_broadcast env _ _ _) (not_mem_remove st fd)
    · rw [close_client_unnamed env st fd c hc (by simpa using hn)]
      exact not_mem_remove st fd
  · intro hn
    rw [close_client_unnamed env st fd c hc hn]
    refine ⟨rfl, ?_, ?_⟩
    · simp [removeClient, World.note, sysClose, del_epoll]
    · intro fd2 h2
      simp [removeClient, findClient_erase, h2]
  · intro hn
    refine ⟨?_, ?_⟩
    · rw [close_client_named env st fd c hc hn, broadcast_unfold]
    · obtain ⟨evs, h1, _, h3⟩ :=
        fanout_trace env (c.name ++ leftSuffix) fd (removeClient st fd) (TableOk_remove hok fd)
      refine ⟨evs, ?_, ?_⟩
      · rw [h1]
        simp [removeClient, World.note, sysClose, del_epoll]
      · intro r hr
        obtain ⟨r2, _, _, hd⟩ := h3 r hr
        have hne : r.fd ≠ fd := by
          have := (List.mem_filter.mp hr).2
          simpa using this
        exact (hd hne).oneAttempt

/-! ## What the trace of a broadcast contains -/

theorem visit_nested (env : Env) (msg : Bytes) (ex : Int) (cl : Client) (w : World) :
    ∃ evs, (visit env msg ex cl w).2.1.log = w.log ++ evs ∧ ∀ e ∈ evs, e.nested := by
  unfold visit
  by_cases h1 : cl.fd = ex
  · exact ⟨[], by simp [h1], by simp⟩
  · by_cases h2 : cl.outq.isEmpty = true
    · simp only [h1, h2, if_false, if_true, World.send]
      cases env.send w.tick with
      | accepted k =>
        simp only [sysSend]
        by_cases h3 : min k msg.length = msg.length
        · exact ⟨[Event.send cl.fd msg (.accepted (min k msg.length))], by simp [h3],
            by simp [Event.nested]⟩
        · by_cases h4 : min k msg.length < msg.length
          · exact ⟨[Event.send cl.fd msg (.accepted (min k msg.length)),
              Event.push cl.fd (msg.drop (min k msg.length)),
              Event.modify cl.fd EPOLLIN_OUT_ET (env.modOk (w.tick + 1))],
              by simp [h3, h4, mod_epoll, World.push], by simp [Event.nested]⟩
          · exact ⟨[Event.send cl.fd msg (.accepted (min k msg.length)),
              Event.modify cl.fd EPOLLIN_OUT_ET (env.modOk (w.tick + 1))],
              by simp [h3, h4, mod_epoll], by simp [Event.nested]⟩
      | wouldBlock =>
        exact ⟨[Event.send cl.fd msg .wouldBlock, Event.push cl.fd msg,
          Event.modify cl.fd EPOLLIN_OUT_ET (env.modOk (w.tick + 1))],
          by simp [sysSend, mod_epoll, World.push], by simp [Event.nested]⟩
      | fatal =>
        exact ⟨[Event.send cl.fd msg .fatal], by simp [sysSend], by simp [Event.nested]⟩
    · exact ⟨[Event.push cl.fd msg, Event.modify cl.fd EPOLLIN_OUT_ET (env.modOk w.tick)],
        by simp [h1, h2, mod_epoll, World.push], by simp [Event.nested]⟩

theorem fanoutList_nested (env : Env) (msg : Bytes) (ex : Int) (cs : List Client) (w : World) :
    ∃ evs, (fanoutList env msg ex cs w).2.1.log = w.log ++ evs ∧ ∀ e ∈ evs, e.nested := by
  induction cs generalizing w with
  | nil => exact ⟨[], by simp [fanoutList], by simp⟩
  | cons cl rest ih =>
    obtain ⟨evs1, h1, h2⟩ := visit_nested env msg ex cl w
    obtain ⟨evs2, h3, h4⟩ := ih (visit env msg ex cl w).2.1
    refine ⟨evs1 ++ evs2, ?_, ?_⟩
    · simp only [fanoutList]
      rw [h3, h1, List.append_assoc]
    · intro e he
      rcases List.mem_append.mp he with h | h
      · exact h2 e h
      · exact h4 e h

theorem fanout_nested (env : Env) (msg : Bytes) (ex : Int) (st : Server) :
    ∃ evs, (fanout env msg ex st).1.w.log = st.w.log ++ Event.bcast msg ex :: evs ∧
      ∀ e ∈ evs, e.nested := by
  obtain ⟨evs, h1, h2⟩ := fanoutList_nested env msg ex st.clients
    (st.w.note (Event.bcast msg ex))
  refine ⟨evs, ?_, h2⟩
  show (fanoutList env msg ex st.clients (st.w.note (Event.bcast msg ex))).2.1.log = _
  rw [h1]
  simp [World.note]

theorem LogExt_refl (st : Server) : LogExt st.w.log st := ⟨[], by simp, by simp⟩

theorem LogExt_preserved (env : Env) (l0 : List Event) : Preserved env (LogExt l0) where
  fan := by
    intro st name ex ⟨evs, h1, h2⟩
    obtain ⟨evs2, h3, h4⟩ := fanout_nested env (name ++ leftSuffix) ex st
    refine ⟨evs ++ Event.bcast (name ++ leftSuffix) ex :: evs2, ?_, ?_⟩
    · rw [h3, h1, List.append_assoc]
    · intro e he
      rcases List.mem_append.mp he with h | h
      · exact h2 e h
      · rcases List.mem_cons.mp h with h | h
        · subst h; exact ⟨name, rfl⟩
        · exact h4 e h
  rem := by
    intro st fd c _ ⟨evs, h1, h2⟩
    refine ⟨evs ++ [Event.closed fd], ?_, ?_⟩
    · simp [removeClient, World.note, sysClose, del_epoll, h1]
    · intro e he
      rcases List.mem_append.mp he with h | h
      · exact h2 e h
      · rw [List.mem_singleton.mp h]; trivial
  abs := by
    intro st fd _ ⟨evs, h1, h2⟩
    exact ⟨evs, by simp [sysClose, del_epoll, h1], h2⟩

theorem broadcast_log (env : Env) (st : Server) (msg : Bytes) (ex : Int) :
    ∃ evs, (broadcast env st msg ex).w.log = st.w.log ++ Event.bcast msg ex :: evs ∧
      ∀ e ∈ evs, e.nested := by
  obtain ⟨evs1, h1, h2⟩ := fanout_nested env msg ex st
  obtain ⟨evs2, h3, h4⟩ := broadcast_preserves (LogExt_preserved env _) st msg ex
    (LogExt_refl (fanout env msg ex st).1)
  refine ⟨evs1 ++ evs2, ?_, ?_⟩
  · rw [h3, h1]; simp
  · intro e he
    rcases List.mem_append.mp he with h | h
    · exact h2 e h
    · exact h4 e h

theorem close_client_log (env : Env) (st : Server) (fd : Int) :
    LogExt st.w.log (close_client env st fd) :=
  close_client_preserves (LogExt_preserved env _) st fd (LogExt_refl st)

theorem leave_ne_join (a b : Bytes) : a ++ leftSuffix ≠ b ++ joinedSuffix := by
  intro h
  have h2 := congrArg (fun l => l.reverse.take 12) h
  simp only [List.reverse_append] at h2
  rw [List.take_append_of_le_length (by simp [leftSuffix]),
    List.take_append_of_le_length (by simp [joinedSuffix])] at h2
  revert h2
  simp [leftSuffix, joinedSuffix]

theorem bcastsOf_nested (join : Bytes) (hj : ∃ b, join = b ++ joinedSuffix)
    (evs : List Event) (h : ∀ e ∈ evs, e.nested) :
    (bcastsOf evs).filter (fun p => decide (p.1 = join)) = [] := by
  induction evs with
  | nil => rfl
  | cons e evs ih =>
    have h1 := h e (List.mem_cons_self _ _)
    have h2 := ih (fun x hx => h x (List.mem_cons_of_mem _ hx))
    cases e with
    | bcast m x =>
      obtain ⟨name, hm⟩ := h1
      obtain ⟨b, hb⟩ := hj
      have hne : ¬ m = join := by rw [hm, hb]; exact leave_ne_join name b
      simp only [bcastsOf, List.filterMap_cons] at h2 ⊢
      rw [List.filter_cons_of_neg (by simpa using hne)]
      exact h2
    | _ => simpa [bcastsOf] using h2

/-- C1. Naming gate: for an unnamed connection `c` with key `fd` and a line `L`. If `L`
without its trailing carriage returns and line feeds is empty, `c` stays in the table
unnamed, its queue gains the empty-name prompt as last entry, and the trace gains the
append and the interest change only (no broadcast).  Otherwise `on_line` names the entry
with exactly the trimmed value and is then the call
`broadcast(name ++ " has joined the chat.\n", fd)`: the trace gains exactly one broadcast
of that message, with `fd` excluded, and `c` has that name wherever it is still in the
table afterwards. -/
theorem naming_gate (env : Env) (st : Server) (fd : Int) (c : Client) (L : Bytes)
    (hc : findClient st.clients fd = some c) (hu : c.named = false) :
    (trim_newlines L = [] →
      findClient (on_line env st fd L).clients fd =
        some { c with outq := c.outq ++ [emptyNamePrompt] } ∧
      ∃ ok, (on_line env st fd L).w.log =
        st.w.log ++ [Event.push fd emptyNamePrompt, Event.modify fd EPOLLIN_OUT_ET ok]) ∧
    (trim_newlines L ≠ [] →
      on_line env st fd L =
        broadcast env
          ⟨updateClient st.clients fd (fun x => { x with named := true, name := trim_newlines L }),
            st.w⟩
          (trim_newlines L ++ joinedSuffix) fd ∧
      findClient
        (updateClient st.clients fd (fun x => { x with named := true, name := trim_newlines L }))
        fd = some { c with named := true, name := trim_newlines L } ∧
      (∃ evs, (on_line env st fd L).w.log = st.w.log ++ evs ∧
        (bcastsOf evs).filter (fun p => decide (p.1 = trim_newlines L ++ joinedSuffix)) =
          [(trim_newlines L ++ joinedSuffix, fd)]) ∧
      ∀ c2, findClient (on_line env st fd L).clients fd = some c2 →
        c2.named = true ∧ c2.name = trim_newlines L) := by
  have hfd := findClient_fd hc
  constructor
  · intro he
    unfold on_line
    simp only [hc, hu, Bool.not_false, if_true, he, List.isEmpty_nil, hfd]
    refine ⟨?_, env.modOk st.w.tick, ?_⟩
    · rw [findClient_update st.clients fd fd
        (fun x => { x with outq := x.outq ++ [emptyNamePrompt] }) (fun _ => rfl), hc]
      simp [hfd, hu]
    · simp [mod_epoll, World.push]
  · intro he
    have he2 : (trim_newlines L).isEmpty = false := by
      cases h : trim_newlines L with
      | nil => exact absurd h he
      | cons a b => rfl
    have hon : on_line env st fd L =
        broadcast env
          ⟨updateClient st.clients fd
            (fun x => { x with named := true, name := trim_newlines L }), st.w⟩
          (trim_newlines L ++ joinedSuffix) fd := by
      unfold on_line
      simp only [hc, hu, Bool.not_false, if_true, he2, Bool.false_eq_true, if_false, hfd]
    have hfind : findClient
        (updateClient st.clients fd (fun x => { x with named := true, name := trim_newlines L }))
        fd = some { c with named := true, name := trim_newlines L } := by
      rw [findClient_update st.clients fd fd
        (fun x => { x with named := true, name := trim_newlines L }) (fun _ => rfl), hc]
      simp
    refine ⟨hon, hfind, ?_, ?_⟩
    · rw [hon]
      obtain ⟨evs, h1, h2⟩ := broadcast_log env
        ⟨updateClient st.clients fd
          (fun x => { x with named := true, name := trim_newlines L }), st.w⟩
        (trim_newlines L ++ joinedSuffix) fd
      refine ⟨_, h1, ?_⟩
      simp only [bcastsOf, List.filterMap_cons]
      rw [List.filter_cons_of_pos (by simp)]
      have := bcastsOf_nested (trim_newlines L ++ joinedSuffix) ⟨_, rfl⟩ evs h2
      simp only [bcastsOf] at this
      rw [this]
    · intro c2 h2
      rw [hon] at h2
      obtain ⟨c1, h3, _, h5⟩ := Keeps_broadcast env _ _ _ fd c2 h2
      simp only at h3
      rw [hfind] at h3
      injection h3 with h3
      subst h3
      exact h5 rfl

/-! ## The write path -/

theorem drainQueue_spec (env : Env) (fd : Int) (q : List Bytes) (w : World) :
    ∃ done rest tail, q = done ++ rest ∧
      (drainQueue env fd q w).2.2.log = w.log ++ (fullSends fd done ++ tail) ∧
      DrainStop fd rest (drainQueue env fd q w).1 tail (drainQueue env fd q w).2.1 := by
  induction q generalizing w with
  | nil =>
    exact ⟨[], [], [], rfl, by simp [drainQueue, fullSends], Or.inl ⟨rfl, rfl, rfl, rfl⟩⟩
  | cons front later ih =>
    simp only [drainQueue, World.send]
    cases env.send w.tick with
    | wouldBlock =>
      refine ⟨[], front :: later, [Event.send fd front .wouldBlock], rfl, ?_, ?_⟩
      · simp [sysSend, fullSends]
      · exact Or.inr (Or.inl ⟨front, later, rfl, rfl, rfl, rfl⟩)
    | fatal =>
      refine ⟨[], front :: later, [Event.send fd front .fatal], rfl, ?_, ?_⟩
      · simp [sysSend, fullSends]
      · exact Or.inr (Or.inr (Or.inr ⟨front, later, rfl, rfl, rfl, rfl⟩))
    | accepted k =>
      simp only [sysSend]
      by_cases hk : min k front.length < front.length
      · simp only [hk, if_true]
        refine ⟨[], front :: later, [Event.send fd front (.accepted (min k front.length))],
          rfl, ?_, ?_⟩
        · simp [fullSends]
        · exact Or.inr (Or.inr (Or.inl ⟨front, later, _, rfl, hk, rfl, rfl, rfl⟩))
      · simp only [hk, if_false]
        have hk2 : min k front.length = front.length :=
          le_antisymm (Nat.min_le_right _ _) (not_lt.mp hk)
        obtain ⟨done, rest, tail, h1, h2, h3⟩ := ih
          { epoll := w.epoll, tick := w.tick + 1,
            log := w.log ++ [Event.send fd front (.accepted (min k front.length))] }
        refine ⟨front :: done, rest, tail, by rw [h1]; rfl, ?_, h3⟩
        rw [h2, hk2]
        simp [fullSends]

theorem sendsTo_fullSends (fd : Int) (done : List Bytes) :
    sendsTo fd (fullSends fd done) = done.map (fun d => (d, SendOutcome.accepted d.length)) := by
  induction done with
  | nil => rfl
  | cons d done ih =>
    simp only [fullSends, sendsTo, List.map_cons, List.filterMap_cons] at ih ⊢
    simp [ih]

theorem writtenTo_append (fd : Int) (a b : List Event) :
    writtenTo fd (a ++ b) = writtenTo fd a ++ writtenTo fd b := by
  simp [writtenTo, sendsTo_append]

theorem writtenTo_fullSends (fd : Int) (done : List Bytes) :
    writtenTo fd (fullSends fd done) = done.flatten := by
  unfold writtenTo
  rw [sendsTo_fullSends]
  induction done with
  | nil => rfl
  | cons d done ih =>
    simp only [List.map_cons, List.flatten_cons, ih, acceptedBytes, List.take_length]

/-- C6. The write path drains the queue in FIFO order: the queue `c.outq` splits into the
chunks `done` that were each sent whole, in order, and the chunks `rest`; the `::send`
calls of `handle_write` are those on `done` followed by at most one more, on the first
chunk of `rest`.  The loop ends with the queue empty, or on a would-block with `rest` left
as it was, or on a short write of `k` bytes with the first chunk of `rest` cut by `k` bytes
and the later chunks unchanged.  In every case without a fatal result the bytes taken by
the sends followed by the queue afterwards are the queue before. -/
theorem handle_write_fifo (env : Env) (st : Server) (fd : Int) (c : Client)
    (hc : findClient st.clients fd = some c) :
    ∃ evs, (handle_write env st fd).w.log = st.w.log ++ evs ∧
      ((∀ d, (d, SendOutcome.fatal) ∉ sendsTo fd evs) →
        ∃ c2, findClient (handle_write env st fd).clients fd = some c2 ∧
          writtenTo fd evs ++ c2.outq.flatten = c.outq.flatten ∧
          ∃ done rest, c.outq = done ++ rest ∧
            ((rest = [] ∧ c2.outq = [] ∧
                sendsTo fd evs = done.map (fun d => (d, SendOutcome.accepted d.length))) ∨
             (∃ front later, rest = front :: later ∧ c2.outq = front :: later ∧
                sendsTo fd evs = done.map (fun d => (d, SendOutcome.accepted d.length)) ++
                  [(front, SendOutcome.wouldBlock)]) ∨
             (∃ front later k, rest = front :: later ∧ k < front.length ∧
                c2.outq = front.drop k :: later ∧
                sendsTo fd evs = done.map (fun d => (d, SendOutcome.accepted d.length)) ++
                  [(front, SendOutcome.accepted k)]))) := by
  obtain ⟨done, rest, tail, h1, h2, h3⟩ := drainQueue_spec env fd c.outq st.w
  have hfind : ∀ (q : List Bytes),
      findClient (updateClient st.clients fd (fun x => { x with outq := q }))
        fd = some { c with outq := q } := by
    intro q
    rw [findClient_update st.clients fd fd (fun x => { x with outq := q }) (fun _ => rfl), hc]
    simp
  rcases hd : drainQueue env fd c.outq st.w with ⟨e, q, w1⟩
  rw [hd] at h2 h3
  simp only at h2 h3
  rcases h3 with ⟨e1, e2, e3, e4⟩ | ⟨front, later, e1, e2, e3, e4⟩ |
    ⟨front, later, k, e1, ek, e2, e3, e4⟩ | ⟨front, later, e1, e2, e3, e4⟩
  · subst e1 e2 e3 e4
    refine ⟨fullSends fd done ++ [Event.modify fd EPOLLIN_ET (env.modOk w1.tick)], ?_, ?_⟩
    · simp [handle_write, hc, hd, mod_epoll, h2]
    · intro _
      refine ⟨{ c with outq := [] }, ?_, ?_, done, [], h1, Or.inl ⟨rfl, rfl, ?_⟩⟩
      · simp only [handle_write, hc, hd]
        exact hfind []
      · rw [writtenTo_append, writtenTo_fullSends]
        simp [writtenTo, sendsTo, h1]
      · simp only [sendsTo_append, sendsTo_fullSends]
        simp [sendsTo]
  · subst e1 e2 e3 e4
    refine ⟨fullSends fd done ++ [Event.send fd front .wouldBlock], ?_, ?_⟩
    · simp [handle_write, hc, hd, h2]
    · intro _
      refine ⟨{ c with outq := front :: later }, ?_, ?_, done, front :: later, h1,
        Or.inr (Or.inl ⟨front, later, rfl, rfl, ?_⟩)⟩
      · simp only [handle_write, hc, hd]
        exact hfind _
      · rw [writtenTo_append, writtenTo_fullSends]
        simp [writtenTo, sendsTo, h1, acceptedBytes]
      · simp only [sendsTo_append, sendsTo_fullSends]
        simp [sendsTo]
  · subst e1 e2 e3 e4
    refine ⟨fullSends fd done ++ [Event.send fd front (.accepted k)], ?_, ?_⟩
    · simp [handle_write, hc, hd, h2]
    · intro _
      refine ⟨{ c with outq := front.drop k :: later }, ?_, ?_, done, front :: later, h1,
        Or.inr (Or.inr ⟨front, later, k, rfl, ek, rfl, ?_⟩)⟩
      · simp only [handle_write, hc, hd]
        exact hfind _
      · rw [writtenTo_append, writtenTo_fullSends]
        simp only [writtenTo, sendsTo, h1, acceptedBytes, List.filterMap_cons, if_true,
          List.filterMap_nil, List.map_cons, List.map_nil, List.flatten_cons, List.flatten_nil,
          List.append_nil, List.flatten_append, List.append_assoc]
        rw [← List.append_assoc (List.take k front), List.take_append_drop]
      · simp only [sendsTo_append, sendsTo_fullSends]
        simp [sendsTo]
  · subst e1 e2 e3 e4
    obtain ⟨evs2, h5, _⟩ := close_client_log env
      ⟨updateClient st.clients fd (fun x => { x with outq := front :: later }), w1⟩ fd
    refine ⟨fullSends fd done ++ [Event.send fd front .fatal] ++ evs2, ?_, ?_⟩
    · simp only [handle_write, hc, hd]
      rw [h5]
      simp [h2]
    · intro hnf
      exfalso
      apply hnf front
      simp only [sendsTo_append]
      simp [sendsTo]

/-! ## The read path: line framing -/

theorem linesOf_append (fd : Int) (a b : List Event) :
    linesOf fd (a ++ b) = linesOf fd a ++ linesOf fd b := by
  simp [linesOf, List.filterMap_append]

theorem linesOf_nested (fd : Int) (evs : List Event) (h : ∀ e ∈ evs, e.nested) :
    linesOf fd evs = [] := by
  induction evs with
  | nil => rfl
  | cons e evs ih =>
    have h1 := h e (List.mem_cons_self _ _)
    have h2 := ih (fun x hx => h x (List.mem_cons_of_mem _ hx))
    cases e <;> simp_all [linesOf, Event.nested]

theorem on_line_log (env : Env) (st : Server) (fd : Int) (l : Bytes) :
    ∃ evs, (on_line env st fd l).w.log = st.w.log ++ evs ∧ ∀ fd2, linesOf fd2 evs = [] := by
  have hb : ∀ (s : Server) (msg : Bytes) (ex : Int) (l0 : List Event), s.w.log = l0 →
      ∃ evs, (broadcast env s msg ex).w.log = l0 ++ evs ∧ ∀ fd2, linesOf fd2 evs = [] := by
    intro s msg ex l0 hl
    obtain ⟨evs, h1, h2⟩ := broadcast_log env s msg ex
    refine ⟨Event.bcast msg ex :: evs, by rw [h1, hl], fun fd2 => ?_⟩
    have := linesOf_nested fd2 evs h2
    simpa [linesOf] using this
  unfold on_line
  cases hc : findClient st.clients fd with
  | none => exact ⟨[], by simp, fun _ => rfl⟩
  | some c =>
    simp only
    by_cases hn : c.named = true
    · simp only [hn, Bool.not_true, Bool.false_eq_true, if_false]
      exact hb _ _ _ _ rfl
    · have hn2 : c.named = false := by simpa using hn
      simp only [hn2, Bool.not_false, if_true]
      by_cases he : (trim_newlines l).isEmpty = true
      · simp only [he, if_true]
        exact ⟨[Event.push c.fd emptyNamePrompt,
          Event.modify c.fd EPOLLIN_OUT_ET (env.modOk st.w.tick)],
          by simp [mod_epoll, World.push], fun _ => rfl⟩
      · simp only [he]
        exact hb _ _ _ _ rfl

theorem findFrom_hit (pre s tl : Bytes) (hs : '\n' ∉ s) :
    findFrom (pre ++ (s ++ '\n' :: tl)) '\n' pre.length = some (pre.length + s.length) := by
  unfold findFrom
  simp only [List.drop_left]
  rw [List.indexOf_append_of_not_mem hs, List.indexOf_cons_self]
  simp

theorem findFrom_miss (pre rest : Bytes) (hr : '\n' ∉ rest) :
    findFrom (pre ++ rest) '\n' pre.length = none := by
  unfold findFrom
  simp only [List.drop_left]
  rw [List.indexOf_eq_length.mpr hr]
  simp

theorem substr_hit (pre s tl : Bytes) :
    substr (pre ++ (s ++ '\n' :: tl)) pre.length (pre.length + s.length - pre.length) = s := by
  unfold substr
  simp

theorem frameLoop_spec (env : Env) (fd : Int) (rest : Bytes) (hr : '\n' ∉ rest) :
    ∀ lines : List Bytes, (∀ s ∈ lines, '\n' ∉ s) →
    ∀ (fuel : Nat) (st : Server) (pre : Bytes) (c : Client), lines.length < fuel →
      findClient st.clients fd = some c →
      c.inbuf = pre ++ ((lines.map (fun s => s ++ ['\n'])).flatten ++ rest) →
      frameLoop env fd fuel st pre.length = .error .useAfterFree ∨
      ∃ st2 evs c2, frameLoop env fd fuel st pre.length = .ok st2 ∧
        st2.w.log = st.w.log ++ evs ∧ linesOf fd evs = lines.map trim_newlines ∧
        (∀ fd2, fd2 ≠ fd → linesOf fd2 evs = []) ∧
        findClient st2.clients fd = some c2 ∧ c2.inbuf = rest := by
  intro lines
  induction lines with
  | nil =>
    intro _ fuel st pre c hf hc hb
    right
    obtain ⟨f, rfl⟩ : ∃ f, fuel = f + 1 := ⟨fuel - 1, by omega⟩
    simp only [List.map_nil, List.flatten_nil, List.nil_append] at hb
    simp only [frameLoop, hc, hb, findFrom_miss pre rest hr]
    by_cases hp : 0 < pre.length
    · simp only [hp, if_true]
      refine ⟨_, [], { c with inbuf := rest }, rfl, by simp, rfl, fun _ _ => rfl, ?_, rfl⟩
      simp only
      rw [findClient_update st.clients fd fd
        (fun x => { x with inbuf := x.inbuf.drop pre.length }) (fun _ => rfl), hc]
      simp [hb]
    · simp only [hp, if_false]
      have : pre = [] := List.length_eq_zero.mp (by omega)
      subst this
      exact ⟨st, [], c, rfl, by simp, rfl, fun _ _ => rfl, hc, by simpa using hb⟩
  | cons s lines ih =>
    intro hl fuel st pre c hf hc hb
    obtain ⟨f, rfl⟩ : ∃ f, fuel = f + 1 := ⟨fuel - 1, by omega⟩
    have hs : '\n' ∉ s := hl s (List.mem_cons_self _ _)
    have hb2 : c.inbuf =
        pre ++ (s ++ '\n' :: ((lines.map (fun s => s ++ ['\n'])).flatten ++ rest)) := by
      rw [hb]; simp
    simp only [frameLoop, hc, hb2, findFrom_hit pre s _ hs, substr_hit]
    have hlen : lines.length < f := by simp only [List.length_cons] at hf; omega
    cases hc1 : findClient (on_line env ⟨st.clients, st.w.note (Event.line fd (trim_newlines s))⟩
        fd (trim_newlines s)).clients fd with
    | none =>
      left
      obtain ⟨g, rfl⟩ : ∃ g, f = g + 1 := ⟨f - 1, by omega⟩
      simp only [frameLoop, hc1]
    | some c1 =>
      obtain ⟨c0, h0, hin, _⟩ := Keeps_on_line env
        ⟨st.clients, st.w.note (Event.line fd (trim_newlines s))⟩ fd (trim_newlines s) fd c1 hc1
      simp only [hc] at h0
      injection h0 with h0
      subst h0
      have hpre : (pre ++ (s ++ ['\n'])).length = pre.length + s.length + 1 := by
        simp [Nat.add_assoc]
      have hb3 : c1.inbuf = (pre ++ (s ++ ['\n'])) ++
          ((lines.map (fun s => s ++ ['\n'])).flatten ++ rest) := by
        rw [hin, hb2]; simp
      have := ih (fun x hx => hl x (List.mem_cons_of_mem _ hx)) f _ (pre ++ (s ++ ['\n'])) c1
        hlen hc1 hb3
      rw [hpre] at this
      rcases this with h | ⟨st2, evs, c2, h1, h2, h3, h4, h5, h6⟩
      · left; exact h
      · right
        obtain ⟨evs1, g1, g2⟩ := on_line_log env
          ⟨st.clients, st.w.note (Event.line fd (trim_newlines s))⟩ fd (trim_newlines s)
        refine ⟨st2, Event.line fd (trim_newlines s) :: (evs1 ++ evs), c2, h1, ?_, ?_, ?_,
          h5, h6⟩
        · rw [h2, g1]; simp [World.note]
        · rw [List.map_cons, ← h3]
          simp only [linesOf, List.filterMap_cons, if_true]
          have := g2 fd
          simp only [linesOf] at this
          rw [List.filterMap_append, this, List.nil_append]
        · intro fd2 hne
          have e1 := g2 fd2
          have e2 := h4 fd2 hne
          have hne2 : ¬ fd = fd2 := fun e => hne e.symm
          simp only [linesOf, List.filterMap_cons, hne2, if_false] at e1 e2 ⊢
          rw [List.filterMap_append, e1, e2]; rfl

theorem dropWhile_agree {p q : Char → Bool} :
    ∀ l : List Char, (∀ x ∈ l, p x = q x) → l.dropWhile p = l.dropWhile q := by
  intro l
  induction l with
  | nil => intro _; rfl
  | cons a l ih =>
    intro h
    have ha := h a (List.mem_cons_self _ _)
    have hl := ih (fun x hx => h x (List.mem_cons_of_mem _ hx))
    simp only [List.dropWhile_cons, ha, hl]

theorem trim_eq_strip (s : Bytes) (hs : '\n' ∉ s) : trim_newlines s = stripTrailingCR s := by
  unfold trim_newlines stripTrailingCR List.rdropWhile
  congr 1
  apply dropWhile_agree
  intro x hx
  have hne : x ≠ '\n' := by
    intro e
    exact hs (e ▸ List.mem_reverse.mp hx)
  simp [hne]

theorem lines_length_le (lines : List Bytes) :
    lines.length ≤ ((lines.map (fun s => s ++ ['\n'])).flatten).length := by
  induction lines with
  | nil => simp
  | cons s lines ih =>
    simp only [List.map_cons, List.flatten_cons, List.length_append, List.length_cons,
      List.length_nil] at ih ⊢
    omega

/-- C5. Line framing in `handle_read`: let the inbound buffer after the read drain be
`s1 ++ "\n" ++ ... ++ sk ++ "\n" ++ rest` with no line feed in any `si` nor in `rest`.
Unless the connection is destroyed during a dispatch (the run then ends in a use of the
destroyed entry), `handle_read` returns, has dispatched `on_line` for this connection
exactly `k` times, in order, the i-th time with `si` without its trailing carriage
returns, has dispatched no line for any other connection, and leaves the inbound buffer
equal to `rest`. -/
theorem line_framing (env : Env) (st : Server) (fd : Int) (c : Client)
    (chunks : List Bytes) (fin : RecvEnd) (lines : List Bytes) (rest : Bytes)
    (hc : findClient st.clients fd = some c)
    (hd : drainRecv c.inbuf chunks fin =
      ((lines.map (fun s => s ++ ['\n'])).flatten ++ rest, false))
    (hl : ∀ s ∈ lines, '\n' ∉ s) (hr : '\n' ∉ rest)
    (hlive : handle_read env st fd chunks fin ≠ .error .useAfterFree) :
    ∃ st2 evs c2, handle_read env st fd chunks fin = .ok st2 ∧
      st2.w.log = st.w.log ++ evs ∧
      linesOf fd evs = lines.map stripTrailingCR ∧
      (∀ fd2, fd2 ≠ fd → linesOf fd2 evs = []) ∧
      findClient st2.clients fd = some c2 ∧ c2.inbuf = rest := by
  have hc1 : findClient (updateClient st.clients fd
      (fun x => { x with inbuf := (lines.map (fun s => s ++ ['\n'])).flatten ++ rest })) fd =
      some { c with inbuf := (lines.map (fun s => s ++ ['\n'])).flatten ++ rest } := by
    rw [findClient_update st.clients fd fd
      (fun x => { x with inbuf := (lines.map (fun s => s ++ ['\n'])).flatten ++ rest })
      (fun _ => rfl), hc]
    simp
  have heq : handle_read env st fd chunks fin =
      frameLoop env fd (((lines.map (fun s => s ++ ['\n'])).flatten ++ rest).length + 1)
        ⟨updateClient st.clients fd
          (fun x => { x with inbuf := (lines.map (fun s => s ++ ['\n'])).flatten ++ rest }),
          st.w⟩ ([] : Bytes).length := by
    simp only [handle_read, hc, hd, frame, hc1, Bool.false_eq_true, if_false, List.length_nil]
  have hfuel : lines.length <
      ((lines.map (fun s => s ++ ['\n'])).flatten ++ rest).length + 1 := by
    have := lines_length_le lines
    simp only [List.length_append]
    omega
  rw [heq] at hlive ⊢
  rcases frameLoop_spec env fd rest hr lines hl _
    ⟨updateClient st.clients fd
      (fun x => { x with inbuf := (lines.map (fun s => s ++ ['\n'])).flatten ++ rest }), st.w⟩
    [] { c with inbuf := (lines.map (fun s => s ++ ['\n'])).flatten ++ rest } hfuel hc1
    (by simp) with
    h | ⟨st2, evs, c2, h1, h2, h3, h4, h5, h6⟩
  · exact absurd h hlive
  · refine ⟨st2, evs, c2, h1, h2, ?_, h4, h5, h6⟩
    rw [h3]
    exact List.map_congr_left (fun s hs => trim_eq_strip s (hl s hs))

/-! ## Names -/

theorem Keeps.traces {a b : Server} (h : Keeps a b) : Traces a b := by
  intro fd c2 h2
  obtain ⟨c1, h3, _, h5⟩ := h fd c2 h2
  exact ⟨c1, h3, h5⟩

theorem Traces_refl (st : Server) : Traces st st := (Keeps_refl st).traces

theorem Traces_trans {a b c : Server} (h1 : Traces a b) (h2 : Traces b c) : Traces a c := by
  intro fd c3 h
  obtain ⟨c2, hb, hn2⟩ := h2 fd c3 h
  obtain ⟨c1, ha, hn1⟩ := h1 fd c2 hb
  refine ⟨c1, ha, fun hn => ?_⟩
  obtain ⟨x, y⟩ := hn1 hn
  obtain ⟨x2, y2⟩ := hn2 x
  exact ⟨x2, y2.trans y⟩

theorem Traces.namesKept {a b : Server} (h : Traces a b) : NamesKept a b := by
  intro fd c1 c2 h1 hn h2
  obtain ⟨c, h3, h4⟩ := h fd c2 h2
  rw [h1] at h3
  injection h3 with h3
  subst h3
  exact h4 hn

theorem Traces_update (st : Server) (fd : Int) (f : Client → Client) (w : World)
    (hf : ∀ c, (f c).fd = c.fd ∧ (f c).named = c.named ∧ (f c).name = c.name) :
    Traces st ⟨updateClient st.clients fd f, w⟩ := by
  intro fd2 c2 h
  simp only at h
  rw [findClient_update _ _ _ _ (fun c => (hf c).1)] at h
  by_cases h2 : fd2 = fd
  · simp only [h2, if_true] at h
    cases h3 : findClient st.clients fd with
    | none => rw [h3] at h; cases h
    | some c =>
      rw [h3] at h
      simp only [Option.map_some'] at h
      injection h with h
      subst h
      exact ⟨c, by rw [h2]; exact h3, fun hn => ⟨by rw [(hf c).2.1]; exact hn, (hf c).2.2⟩⟩
  · simp only [h2, if_false] at h
    exact ⟨c2, h, fun hn => ⟨hn, rfl⟩⟩

theorem Traces_handle_write (env : Env) (st : Server) (fd : Int) :
    Traces st (handle_write env st fd) := by
  unfold handle_write
  cases hc : findClient st.clients fd with
  | none => exact Traces_refl st
  | some c =>
    simp only
    rcases hd : drainQueue env fd c.outq st.w with ⟨e, q, w1⟩
    cases e with
    | emptied => exact Traces_update st fd _ _ (fun _ => ⟨rfl, rfl, rfl⟩)
    | blocked => exact Traces_update st fd _ _ (fun _ => ⟨rfl, rfl, rfl⟩)
    | shortWrite => exact Traces_update st fd _ _ (fun _ => ⟨rfl, rfl, rfl⟩)
    | failed =>
      exact Traces_trans (Traces_update st fd (fun x => { x with outq := q }) w1
        (fun _ => ⟨rfl, rfl, rfl⟩)) (Keeps_close_client env _ fd).traces

theorem Traces_frameLoop (env : Env) (fd : Int) :
    ∀ (fuel : Nat) (st : Server) (pos : Nat) (st2 : Server),
      frameLoop env fd fuel st pos = .ok st2 → Traces st st2 := by
  intro fuel
  induction fuel with
  | zero => intro st pos st2 h; cases h
  | succ f ih =>
    intro st pos st2 h
    simp only [frameLoop] at h
    cases hc : findClient st.clients fd with
    | none => rw [hc] at h; cases h
    | some c =>
      rw [hc] at h
      simp only at h
      cases hf : findFrom c.inbuf '\n' pos with
      | none =>
        rw [hf] at h
        simp only at h
        by_cases hp : 0 < pos
        · simp only [hp, if_true] at h
          injection h with h
          rw [← h]
          exact Traces_update st fd _ _ (fun _ => ⟨rfl, rfl, rfl⟩)
        · simp only [hp, if_false] at h
          injection h with h
          rw [← h]
          exact Traces_refl st
      | some nl =>
        rw [hf] at h
        simp only at h
        have h1 := ih _ _ _ h
        have h2 : Traces st (on_line env
            ⟨st.clients, st.w.note (Event.line fd (trim_newlines (substr c.inbuf pos (nl - pos))))⟩
            fd (trim_newlines (substr c.inbuf pos (nl - pos)))) := by
          intro fd2 c2 hh
          obtain ⟨c1, a, b⟩ := (Keeps_on_line env
            ⟨st.clients, st.w.note (Event.line fd (trim_newlines (substr c.inbuf pos (nl - pos))))⟩
            fd _).traces fd2 c2 hh
          exact ⟨c1, a, b⟩
        exact Traces_trans h2 h1

theorem Traces_handle_read (env : Env) (st : Server) (fd : Int) (chunks : List Bytes)
    (fin : RecvEnd) (st2 : Server) (h : handle_read env st fd chunks fin = .ok st2) :
    Traces st st2 := by
  unfold handle_read at h
  cases hc : findClient st.clients fd with
  | none =>
    rw [hc] at h
    injection h with h
    rw [← h]
    exact Traces_refl st
  | some c =>
    rw [hc] at h
    simp only at h
    have hu : Traces st ⟨updateClient st.clients fd
        (fun x => { x with inbuf := (drainRecv c.inbuf chunks fin).1 }), st.w⟩ :=
      Traces_update st fd _ _ (fun _ => ⟨rfl, rfl, rfl⟩)
    by_cases hb : (drainRecv c.inbuf chunks fin).2 = true
    · simp only [hb, if_true] at h
      injection h with h
      rw [← h]
      exact Traces_trans hu (Keeps_close_client env _ fd).traces
    · simp only [hb, if_false] at h
      unfold frame at h
      cases hc1 : findClient (updateClient st.clients fd
          (fun x => { x with inbuf := (drainRecv c.inbuf chunks fin).1 })) fd with
      | none => simp only [hc1] at h; cases h
      | some c1 =>
        simp only [hc1] at h
        exact Traces_trans hu (Traces_frameLoop env fd _ _ _ _ h)

/-- C8. The display name is immutable and naming happens once.  On a named connection
`on_line` writes nothing to the entry, it is the broadcast of the chat line (also for the
empty line), and the connection has the same name afterwards wherever it is still in
the table.  More generally a connection named `n` before `on_line`, `handle_write`,
`broadcast`, `close_client` or a returning `handle_read`, and still in the table
afterwards, is still named `n`. -/
theorem names_immutable (env : Env) (st : Server) (fd : Int) (L msg : Bytes) (ex : Int)
    (chunks : List Bytes) (fin : RecvEnd) :
    (∀ c, findClient st.clients fd = some c → c.named = true →
      on_line env st fd L = broadcast env st (c.name ++ ": ".toList ++ L ++ "\n".toList) fd ∧
      ∀ c2, findClient (on_line env st fd L).clients fd = some c2 →
        c2.named = true ∧ c2.name = c.name) ∧
    NamesKept st (on_line env st fd L) ∧
    NamesKept st (handle_write env st fd) ∧
    NamesKept st (broadcast env st msg ex) ∧
    NamesKept st (close_client env st fd) ∧
    ∀ st2, handle_read env st fd chunks fin = .ok st2 → NamesKept st st2 := by
  refine ⟨?_, (Keeps_on_line env st fd L).traces.namesKept,
    (Traces_handle_write env st fd).namesKept,
    (Keeps_broadcast env st msg ex).traces.namesKept,
    (Keeps_close_client env st fd).traces.namesKept,
    fun st2 h => (Traces_handle_read env st fd chunks fin st2 h).namesKept⟩
  intro c hc hn
  refine ⟨?_, fun c2 h2 => (Keeps_on_line env st fd L).traces.namesKept fd c c2 hc hn h2⟩
  unfold on_line
  simp only [hc, hn, Bool.not_true, Bool.false_eq_true, if_false, findClient_fd hc]

/-! ## The write-interest invariant -/

theorem InterestOk_congr {w w2 : World} {c c2 : Client} (h : InterestOk w c)
    (hfd : c2.fd = c.fd) (he : w2.epoll c.fd = w.epoll c.fd)
    (hq : c2.outq ≠ [] ↔ c.outq ≠ []) : InterestOk w2 c2 := by
  obtain ⟨i, h1, h2, h3⟩ := h
  exact ⟨i, by rw [hfd, he]; exact h1, h2, h3.trans hq.symm⟩

theorem InterestOk_set (w : World) (c : Client) (h : w.epoll c.fd = some EPOLLIN_OUT_ET)
    (hq : c.outq ≠ []) : InterestOk w c :=
  ⟨EPOLLIN_OUT_ET, h, rfl, by simp [EPOLLIN_OUT_ET, hq]⟩

theorem visit_interest (env : Env) (hmod : ∀ t, env.modOk t = true) (msg : Bytes) (ex : Int)
    (cl : Client) (w : World) (h : InterestOk w cl) :
    InterestOk (visit env msg ex cl w).2.1 (visit env msg ex cl w).1 ∧
    ∀ fd, fd ≠ cl.fd → (visit env msg ex cl w).2.1.epoll fd = w.epoll fd := by
  unfold visit
  by_cases h1 : cl.fd = ex
  · simp only [h1, if_true]
    exact ⟨h, by intro _ _; first | rfl | trivial⟩
  · by_cases h2 : cl.outq.isEmpty = true
    · simp only [h1, h2, if_false, if_true, World.send]
      cases env.send w.tick with
      | accepted k =>
        simp only [sysSend]
        by_cases h3 : min k msg.length = msg.length
        · simp only [h3, if_true]
          exact ⟨InterestOk_congr h rfl rfl Iff.rfl, by intro _ _; first | rfl | trivial⟩
        · have h4 : min k msg.length < msg.length :=
            lt_of_le_of_ne (Nat.min_le_right _ _) h3
          simp only [h3, h4, if_false, if_true, mod_epoll, hmod]
          refine ⟨InterestOk_set _ _ (by simp [World.push]) (by simp), fun fd hfd => ?_⟩
          simp [World.push, Function.update, hfd]
      | wouldBlock =>
        simp only [sysSend, mod_epoll, hmod, if_true]
        refine ⟨InterestOk_set _ _ (by simp [World.push]) (by simp), fun fd hfd => ?_⟩
        simp [World.push, Function.update, hfd]
      | fatal =>
        simp only [sysSend]
        exact ⟨InterestOk_congr h rfl rfl Iff.rfl, by intro _ _; first | rfl | trivial⟩
    · simp only [h1, h2, if_false, mod_epoll, hmod, if_true]
      refine ⟨InterestOk_set _ _ (by simp [World.push]) (by simp), fun fd hfd => ?_⟩
      simp [World.push, Function.update, hfd]

theorem fanoutList_interest (env : Env) (hmod : ∀ t, env.modOk t = true) (msg : Bytes)
    (ex : Int) (cs : List Client) (w : World) (hn : (fds cs).Nodup)
    (h : ∀ c ∈ cs, InterestOk w c) :
    (∀ c ∈ (fanoutList env msg ex cs w).1, InterestOk (fanoutList env msg ex cs w).2.1 c) ∧
    ∀ fd, fd ∉ fds cs → (fanoutList env msg ex cs w).2.1.epoll fd = w.epoll fd := by
  induction cs generalizing w with
  | nil => exact ⟨by simp [fanoutList], fun _ _ => rfl⟩
  | cons cl rest ih =>
    simp only [fds, List.map_cons, List.nodup_cons] at hn
    obtain ⟨v1, v2⟩ := visit_interest env hmod msg ex cl w (h cl (List.mem_cons_self _ _))
    have hrest : ∀ c ∈ rest, InterestOk (visit env msg ex cl w).2.1 c := by
      intro c hc
      have hne : c.fd ≠ cl.fd := by
        intro e
        exact hn.1 (e ▸ List.mem_map_of_mem Client.fd hc)
      exact InterestOk_congr (h c (List.mem_cons_of_mem _ hc)) rfl (v2 c.fd hne) Iff.rfl
    obtain ⟨i1, i2⟩ := ih (visit env msg ex cl w).2.1 hn.2 hrest
    simp only [fanoutList]
    constructor
    · intro c hc
      rcases List.mem_cons.mp hc with e | e
      · subst e
        have hfd := (visit_fields env msg ex cl w).1
        have := i2 cl.fd hn.1
        exact InterestOk_congr v1 rfl (by rw [hfd]; exact this) Iff.rfl
      · exact i1 c e
    · intro fd hfd
      simp only [fds, List.map_cons, List.mem_cons, not_or] at hfd
      rw [i2 fd hfd.2, v2 fd hfd.1]

theorem Inv_fanout (env : Env) (hmod : ∀ t, env.modOk t = true) (msg : Bytes) (ex : Int)
    (st : Server) (h : Inv st) : Inv (fanout env msg ex st).1 := by
  refine ⟨?_, ?_⟩
  · show (fds (fanout env msg ex st).1.clients).Nodup
    rw [fanout_fds]; exact h.1
  · exact (fanoutList_interest env hmod msg ex st.clients (st.w.note (Event.bcast msg ex)) h.1
      (fun c hc => InterestOk_congr (h.2 c hc) rfl rfl Iff.rfl)).1

theorem Inv_remove (st : Server) (fd : Int) (h : Inv st) : Inv (removeClient st fd) := by
  refine ⟨TableOk_remove h.1 fd, ?_⟩
  intro c hc
  have hm := List.mem_filter.mp hc
  have hne : c.fd ≠ fd := by simpa using hm.2
  refine InterestOk_congr (h.2 c hm.1) rfl ?_ Iff.rfl
  simp [removeClient, World.note, sysClose, del_epoll, Function.update, hne]

theorem Inv_close_absent (st : Server) (fd : Int) (ha : fd ∉ fds st.clients) (h : Inv st) :
    Inv ⟨st.clients, sysClose (del_epoll st.w fd) fd⟩ := by
  refine ⟨h.1, ?_⟩
  intro c hc
  have hne : c.fd ≠ fd := by
    intro e
    exact ha (e ▸ List.mem_map_of_mem Client.fd hc)
  refine InterestOk_congr (h.2 c hc) rfl ?_ Iff.rfl
  simp [sysClose, del_epoll, Function.update, hne]

theorem Inv_preserved (env : Env) (hmod : ∀ t, env.modOk t = true) : Preserved env Inv where
  fan := fun st _ ex h => Inv_fanout env hmod _ ex st h
  rem := fun st fd _ _ h => Inv_remove st fd h
  abs := fun st fd ha h => Inv_close_absent st fd (findClient_none_iff.mp ha) h

theorem Inv_broadcast (env : Env) (hmod : ∀ t, env.modOk t = true) (st : Server)
    (msg : Bytes) (ex : Int) (h : Inv st) : Inv (broadcast env st msg ex) :=
  broadcast_preserves (Inv_preserved env hmod) st msg ex (Inv_fanout env hmod msg ex st h)

theorem Inv_close_client (env : Env) (hmod : ∀ t, env.modOk t = true) (st : Server)
    (fd : Int) (h : Inv st) : Inv (close_client env st fd) :=
  close_client_preserves (Inv_preserved env hmod) st fd h

theorem Inv_update (st : Server) (fd : Int) (f : Client → Client) (w2 : World)
    (hf : ∀ c, (f c).fd = c.fd)
    (hself : ∀ c ∈ st.clients, c.fd = fd → InterestOk w2 (f c))
    (hother : ∀ fd2, fd2 ≠ fd → w2.epoll fd2 = st.w.epoll fd2) (h : Inv st) :
    Inv ⟨updateClient st.clients fd f, w2⟩ := by
  refine ⟨?_, ?_⟩
  · show (fds (updateClient st.clients fd f)).Nodup
    rw [fds_update _ _ _ hf]; exact h.1
  · intro c2 hc2
    obtain ⟨c, hc, rfl⟩ := List.mem_map.mp hc2
    by_cases e : c.fd = fd
    · simp only [e, if_true]
      exact hself c hc e
    · simp only [e, if_false]
      exact InterestOk_congr (h.2 c hc) rfl (hother c.fd e) Iff.rfl

theorem Inv_world (st : Server) (w2 : World) (he : w2.epoll = st.w.epoll) (h : Inv st) :
    Inv ⟨st.clients, w2⟩ :=
  ⟨h.1, fun c hc => InterestOk_congr (h.2 c hc) rfl (by rw [he]) Iff.rfl⟩

theorem Inv_on_line (env : Env) (hmod : ∀ t, env.modOk t = true) (st : Server) (fd : Int)
    (l : Bytes) (h : Inv st) : Inv (on_line env st fd l) := by
  unfold on_line
  cases hc : findClient st.clients fd with
  | none => exact h
  | some c =>
    have hfd := findClient_fd hc
    simp only
    by_cases hn : c.named = true
    · simp only [hn, Bool.not_true, Bool.false_eq_true, if_false]
      exact Inv_broadcast env hmod st _ _ h
    · have hn2 : c.named = false := by simpa using hn
      simp only [hn2, Bool.not_false, if_true]
      by_cases he : (trim_newlines l).isEmpty = true
      · simp only [he, if_true]
        refine Inv_update st fd _ _ (fun _ => rfl) ?_ ?_ h
        · intro x _ hx
          refine InterestOk_set _ _ ?_ (by simp)
          simp [mod_epoll, hmod, World.push, hfd, hx]
        · intro fd2 h2
          simp [mod_epoll, hmod, World.push, hfd, Function.update, h2]
      · simp only [he]
        refine Inv_broadcast env hmod _ _ _ ?_
        refine Inv_update st fd _ _ (fun _ => rfl) ?_ (fun _ _ => rfl) h
        intro x hx _
        exact InterestOk_congr (h.2 x hx) rfl rfl Iff.rfl

theorem drainQueue_epoll (env : Env) (fd : Int) (q : List Bytes) (w : World) :
    (drainQueue env fd q w).2.2.epoll = w.epoll := by
  induction q generalizing w with
  | nil => rfl
  | cons front later ih =>
    simp only [drainQueue, World.send]
    cases env.send w.tick with
    | wouldBlock => rfl
    | fatal => rfl
    | accepted k =>
      simp only [sysSend]
      by_cases hk : min k front.length < front.length
      · simp only [hk, if_true]
      · simp only [hk, if_false]
        rw [ih]

theorem Inv_handle_write (env : Env) (hmod : ∀ t, env.modOk t = true) (st : Server)
    (fd : Int) (h : Inv st) : Inv (handle_write env st fd) := by
  unfold handle_write
  cases hc : findClient st.clients fd with
  | none => exact h
  | some c =>
    simp only
    obtain ⟨done, rest, tail, h1, _, h3⟩ := drainQueue_spec env fd c.outq st.w
    have hep := drainQueue_epoll env fd c.outq st.w
    have hcu : ∀ x ∈ st.clients, x.fd = fd → x = c := by
      intro x hx e
      have := findClient_of_mem h.1 hx
      rw [e, hc] at this
      injection this with this
      exact this.symm
    rcases hd : drainQueue env fd c.outq st.w with ⟨e, q, w1⟩
    rw [hd] at h3 hep
    simp only at h3 hep
    have keep : q ≠ [] → c.outq ≠ [] →
        Inv ⟨updateClient st.clients fd (fun x => { x with outq := q }), w1⟩ := by
      intro hq hq0
      refine Inv_update st fd _ _ (fun _ => rfl) ?_ (fun fd2 _ => by rw [hep]) h
      intro x hx e
      have := hcu x hx e
      subst this
      refine InterestOk_congr (h.2 x hx) rfl (by rw [hep]) ?_
      simp [hq, hq0]
    rcases h3 with ⟨e1, e2, _, e4⟩ | ⟨front, later, e1, e2, _, e4⟩ |
      ⟨front, later, k, e1, _, e2, _, e4⟩ | ⟨front, later, e1, e2, _, e4⟩
    · subst e2 e4
      simp only
      refine Inv_update st fd _ _ (fun _ => rfl) ?_ ?_ h
      · intro x _ e
        exact ⟨EPOLLIN_ET, by simp [mod_epoll, hmod, e], rfl, by simp [EPOLLIN_ET]⟩
      · intro fd2 h2
        simp [mod_epoll, hmod, Function.update, h2, hep]
    · subst e2 e4
      simp only
      exact keep (by simp) (by rw [h1, e1]; simp)
    · subst e2 e4
      simp only
      exact keep (by simp) (by rw [h1, e1]; simp)
    · subst e2 e4
      simp only
      exact Inv_close_client env hmod _ fd (keep (by simp) (by rw [h1, e1]; simp))

theorem Inv_frameLoop (env : Env) (hmod : ∀ t, env.modOk t = true) (fd : Int) :
    ∀ (fuel : Nat) (st : Server) (pos : Nat) (st2 : Server), Inv st →
      frameLoop env fd fuel st pos = .ok st2 → Inv st2 := by
  intro fuel
  induction fuel with
  | zero => intro st pos st2 _ h; cases h
  | succ f ih =>
    intro st pos st2 hi h
    simp only [frameLoop] at h
    cases hc : findClient st.clients fd with
    | none => rw [hc] at h; cases h
    | some c =>
      rw [hc] at h
      simp only at h
      cases hf : findFrom c.inbuf '\n' pos with
      | none =>
        rw [hf] at h
        simp only at h
        by_cases hp : 0 < pos
        · simp only [hp, if_true] at h
          injection h with h
          rw [← h]
          refine Inv_update st fd _ _ (fun _ => rfl) ?_ (fun _ _ => rfl) hi
          intro x hx _
          exact InterestOk_congr (hi.2 x hx) rfl rfl Iff.rfl
        · simp only [hp, if_false] at h
          injection h with h
          rw [← h]
          exact hi
      | some nl =>
        rw [hf] at h
        simp only at h
        refine ih _ _ _ ?_ h
        exact Inv_on_line env hmod _ fd _ (Inv_world st _ rfl hi)

theorem Inv_handle_read (env : Env) (hmod : ∀ t, env.modOk t = true) (st : Server) (fd : Int)
    (chunks : List Bytes) (fin : RecvEnd) (st2 : Server) (hi : Inv st)
    (h : handle_read env st fd chunks fin = .ok st2) : Inv st2 := by
  unfold handle_read at h
  cases hc : findClient st.clients fd with
  | none =>
    rw [hc] at h
    injection h with h
    rw [← h]
    exact hi
  | some c =>
    rw [hc] at h
    simp only at h
    have hu : Inv ⟨updateClient st.clients fd
        (fun x => { x with inbuf := (drainRecv c.inbuf chunks fin).1 }), st.w⟩ := by
      refine Inv_update st fd _ _ (fun _ => rfl) ?_ (fun _ _ => rfl) hi
      intro x hx _
      exact InterestOk_congr (hi.2 x hx) rfl rfl Iff.rfl
    by_cases hb : (drainRecv c.inbuf chunks fin).2 = true
    · simp only [hb, if_true] at h
      injection h with h
      rw [← h]
      exact Inv_close_client env hmod _ fd hu
    · simp only [hb, if_false] at h
      unfold frame at h
      cases hc1 : findClient (updateClient st.clients fd
          (fun x => { x with inbuf := (drainRecv c.inbuf chunks fin).1 })) fd with
      | none => simp only [hc1] at h; cases h
      | some c1 =>
        simp only [hc1] at h
        exact Inv_frameLoop env hmod fd _ _ _ _ hu h

theorem updateClient_fresh (cs : List Client) (fd : Int) (f : Client → Client)
    (h : fd ∉ fds cs) : updateClient cs fd f = cs := by
  unfold updateClient
  conv_rhs => rw [← List.map_id cs]
  apply List.map_congr_left
  intro c hc
  have hne : ¬ c.fd = fd := by
    intro e
    exact h (e ▸ List.mem_map_of_mem Client.fd hc)
  simp [hne]

theorem accept_new_cons (env : Env) (x : Int × Bool) (rest : List (Int × Bool)) (st : Server) :
    accept_new env (x :: rest) st = accept_new env rest (accept_new env [x] st) := by
  rcases x with ⟨cfd, nb⟩
  cases nb with
  | false => simp [accept_new]
  | true =>
    cases h : env.addOk st.w.tick <;> simp [accept_new, add_epoll, h]

theorem Inv_sysClose (st : Server) (w2 : World) (fd : Int) (ha : fd ∉ fds st.clients)
    (he : w2.epoll = st.w.epoll) (h : Inv st) : Inv ⟨st.clients, sysClose w2 fd⟩ := by
  refine ⟨h.1, ?_⟩
  intro c hc
  have hne : c.fd ≠ fd := by
    intro e
    exact ha (e ▸ List.mem_map_of_mem Client.fd hc)
  refine InterestOk_congr (h.2 c hc) rfl ?_ Iff.rfl
  simp [sysClose, Function.update, hne, he]

theorem Inv_accept_one (env : Env) (hmod : ∀ t, env.modOk t = true) (cfd : Int) (nb : Bool)
    (st : Server) (ha : cfd ∉ fds st.clients) (h : Inv st) :
    Inv (accept_new env [(cfd, nb)] st) := by
  cases nb with
  | false =>
    simp only [accept_new, Bool.not_false, if_true]
    exact Inv_sysClose st st.w cfd ha rfl h
  | true =>
    cases hadd : env.addOk st.w.tick with
    | false =>
      simp only [accept_new, add_epoll, hadd, Bool.not_true, Bool.false_eq_true, if_false]
      exact Inv_sysClose st _ cfd ha rfl h
    | true =>
      simp only [accept_new, add_epoll, hadd, Bool.not_true, Bool.false_eq_true, if_false,
        if_true, mod_epoll, hmod]
      have hins : insertClient st.clients ⟨cfd, false, [], [], []⟩ =
          st.clients ++ [⟨cfd, false, [], [], []⟩] := by
        unfold insertClient
        have : findClient st.clients cfd = none := findClient_none_iff.mpr ha
        simp [this]
      have hupd : updateClient (st.clients ++ [⟨cfd, false, [], [], []⟩]) cfd
          (fun x => { x with outq := x.outq ++ [namePrompt] }) =
          st.clients ++ [⟨cfd, false, [], [], [namePrompt]⟩] := by
        have := updateClient_fresh st.clients cfd
          (fun x => { x with outq := x.outq ++ [namePrompt] }) ha
        unfold updateClient at this ⊢
        rw [List.map_append, this]
        simp
      rw [hins, hupd]
      refine ⟨?_, ?_⟩
      · show (fds (st.clients ++ [⟨cfd, false, [], [], [namePrompt]⟩])).Nodup
        simp only [fds, List.map_append, List.map_cons, List.map_nil]
        rw [List.nodup_append]
        refine ⟨h.1, List.nodup_singleton _, ?_⟩
        intro a ha1 ha2
        rw [List.mem_singleton.mp ha2] at ha1
        exact ha ha1
      · intro c hc
        rcases List.mem_append.mp hc with e | e
        · have hne : c.fd ≠ cfd := by
            intro e2
            exact ha (e2 ▸ List.mem_map_of_mem Client.fd e)
          refine InterestOk_congr (h.2 c e) rfl ?_ Iff.rfl
          simp [World.push, Function.update, hne]
        · rw [List.mem_singleton.mp e]
          exact InterestOk_set _ _ (by simp [World.push]) (by simp)

theorem Inv_accept (env : Env) (hmod : ∀ t, env.modOk t = true) :
    ∀ (conns : List (Int × Bool)) (st : Server), freshScript env conns st → Inv st →
      Inv (accept_new env conns st) := by
  intro conns
  induction conns with
  | nil => intro st _ h; exact h
  | cons x rest ih =>
    intro st hf h
    rw [accept_new_cons]
    exact ih _ hf.2 (Inv_accept_one env hmod x.1 x.2 st hf.1 h)

theorem Inv_init : Inv Server.init :=
  ⟨List.nodup_nil, fun _ hc => absurd hc (List.not_mem_nil _)⟩

theorem Inv_step (env : Env) (hmod : ∀ t, env.modOk t = true) (st st2 : Server)
    (hs : Step env st st2) (h : Inv st) : Inv st2 :=
  match hs with
  | .accept _ conns hf => Inv_accept env hmod conns st hf h
  | .read _ _ fd chunks fin hr => Inv_handle_read env hmod st fd chunks fin st2 h hr
  | .write _ fd => Inv_handle_write env hmod st fd h
  | .line _ fd l => Inv_on_line env hmod st fd l h
  | .bcast _ msg ex => Inv_broadcast env hmod st msg ex h
  | .close _ fd => Inv_close_client env hmod st fd h

theorem Inv_reachable (env : Env) (hmod : ∀ t, env.modOk t = true) (st : Server)
    (hr : Reachable env st) : Inv st := by
  induction hr with
  | init => exact Inv_init
  | step a b _ hs ih => exact Inv_step env hmod a b hs ih

/-- C7, as amended. Write-interest invariant: in a run where every `mod_epoll` call
succeeds, every state reachable from the empty table through `accept_new`, `handle_read`,
`handle_write`, `on_line`, `broadcast` and `close_client` has, for every connection in the
table, read interest registered, and write interest registered exactly when its outbound
queue is non-empty. -/
theorem write_interest_invariant (env : Env) (hmod : ∀ t, env.modOk t = true) (st : Server)
    (hr : Reachable env st) : InterestInv st :=
  (Inv_reachable env hmod st hr).2

/-- C7, the claim as stated fails: after `accept_new` with a failing `mod_epoll` the new
connection is in the table with the prompt queued and read interest only. -/
theorem write_interest_invariant_cex :
    Reachable modFailEnv (accept_new modFailEnv [(7, true)] Server.init) ∧
    ¬ InterestInv (accept_new modFailEnv [(7, true)] Server.init) := by
  refine ⟨Reachable.step _ _ Reachable.init (Step.accept _ _ ⟨by decide, trivial⟩), ?_⟩
  intro h
  obtain ⟨i, h1, _, h3⟩ := h ⟨7, false, [], [], [namePrompt]⟩ (by decide)
  have h4 : i = EPOLLIN_ET := by
    have : (accept_new modFailEnv [(7, true)] Server.init).w.epoll 7 = some EPOLLIN_ET := by
      decide
    rw [this] at h1
    injection h1 with h1
    exact h1.symm
  subst h4
  have := h3.mpr (by decide)
  revert this
  decide

theorem write_interest_invariant_witness :
    (∀ t, okEnv.modOk t = true) ∧
    Reachable okEnv (accept_new okEnv [(7, true)] Server.init) ∧
    InterestInv (accept_new okEnv [(7, true)] Server.init) :=
  ⟨fun _ => rfl,
    Reachable.step _ _ Reachable.init (Step.accept _ _ ⟨by decide, trivial⟩),
    write_interest_invariant okEnv (fun _ => rfl) _
      (Reachable.step _ _ Reachable.init (Step.accept _ _ ⟨by decide, trivial⟩))⟩

/-! ## The result of `mod_epoll` is not consulted -/

theorem visit_mod (env : Env) (m : Nat → Bool) (msg : Bytes) (ex : Int) (cl : Client)
    (w w2 : World) (ht : w.tick = w2.tick) :
    (visit (env.withMod m) msg ex cl w).1 = (visit env msg ex cl w2).1 ∧
    (visit (env.withMod m) msg ex cl w).2.1.tick = (visit env msg ex cl w2).2.1.tick ∧
    (visit (env.withMod m) msg ex cl w).2.2 = (visit env msg ex cl w2).2.2 := by
  unfold visit
  by_cases h1 : cl.fd = ex
  · simp [h1, ht]
  · by_cases h2 : cl.outq.isEmpty = true
    · simp only [h1, h2, if_false, if_true, World.send, Env.withMod, ht]
      cases env.send w2.tick with
      | accepted k =>
        simp only [sysSend]
        by_cases h3 : min k msg.length = msg.length
        · simp [h3]
        · by_cases h4 : min k msg.length < msg.length
          · simp [h3, h4, mod_epoll, World.push]
          · simp [h3, h4, mod_epoll]
      | wouldBlock => simp [sysSend, mod_epoll, World.push]
      | fatal => simp [sysSend]
    · simp [h1, h2, mod_epoll, World.push, ht]

theorem fanoutList_mod (env : Env) (m : Nat → Bool) (msg : Bytes) (ex : Int)
    (cs : List Client) (w w2 : World) (ht : w.tick = w2.tick) :
    (fanoutList (env.withMod m) msg ex cs w).1 = (fanoutList env msg ex cs w2).1 ∧
    (fanoutList (env.withMod m) msg ex cs w).2.1.tick = (fanoutList env msg ex cs w2).2.1.tick ∧
    (fanoutList (env.withMod m) msg ex cs w).2.2 = (fanoutList env msg ex cs w2).2.2 := by
  induction cs generalizing w w2 with
  | nil => exact ⟨rfl, ht, rfl⟩
  | cons cl rest ih =>
    obtain ⟨a1, a2, a3⟩ := visit_mod env m msg ex cl w w2 ht
    obtain ⟨b1, b2, b3⟩ := ih _ _ a2
    simp only [fanoutList]
    exact ⟨by rw [a1, b1], b2, by rw [a3, b3]⟩

theorem fanout_mod (env : Env) (m : Nat → Bool) (msg : Bytes) (ex : Int) (a b : Server)
    (h : SameTable a b) :
    SameTable (fanout (env.withMod m) msg ex a).1 (fanout env msg ex b).1 ∧
    (fanout (env.withMod m) msg ex a).2 = (fanout env msg ex b).2 := by
  obtain ⟨h1, h2, h3⟩ := fanoutList_mod env m msg ex b.clients
    (a.w.note (Event.bcast msg ex)) (b.w.note (Event.bcast msg ex)) h.2
  simp only [fanout, h.1]
  exact ⟨⟨h1, h2⟩, h3⟩

theorem closeWith_mod (bc bc2 : Server → Bytes → Int → Option Server)
    (hbc : ∀ a b msg fd, SameTable a b → OptSame (bc a msg fd) (bc2 b msg fd))
    (a b : Server) (fd : Int) (h : SameTable a b) :
    OptSame (closeWith bc a fd) (closeWith bc2 b fd) := by
  unfold closeWith
  rw [h.1]
  cases hc : findClient b.clients fd with
  | none => exact ⟨rfl, h.2⟩
  | some c =>
    have hs : SameTable (removeClient a fd) (removeClient b fd) := by
      refine ⟨?_, ?_⟩
      · simp [removeClient, h.1]
      · simpa [removeClient, World.note, sysClose, del_epoll] using h.2
    by_cases hn : c.named = true
    · simp only [hn, if_true]
      exact hbc _ _ _ _ hs
    · simp only [hn]
      exact hs

theorem closeAllWith_mod (bc bc2 : Server → Bytes → Int → Option Server)
    (hbc : ∀ a b msg fd, SameTable a b → OptSame (bc a msg fd) (bc2 b msg fd)) :
    ∀ (tc : List Int) (a b : Server), SameTable a b →
      OptSame (closeAllWith bc tc a) (closeAllWith bc2 tc b) := by
  intro tc
  induction tc with
  | nil => intro a b h; exact h
  | cons fd tc ih =>
    intro a b h
    rw [closeAllWith_cons, closeAllWith_cons]
    have h1 := closeWith_mod bc bc2 hbc a b fd h
    cases ha : closeWith bc a fd with
    | none =>
      cases hb : closeWith bc2 b fd with
      | none => trivial
      | some s => rw [ha, hb] at h1; exact h1.elim
    | some s =>
      cases hb : closeWith bc2 b fd with
      | none => rw [ha, hb] at h1; exact h1.elim
      | some s2 =>
        rw [ha, hb] at h1
        exact ih s s2 h1

theorem broadcastF_mod (env : Env) (m : Nat → Bool) :
    ∀ (n : Nat) (a b : Server) (msg : Bytes) (fd : Int), SameTable a b →
      OptSame (broadcastF (env.withMod m) n a msg fd) (broadcastF env n b msg fd) := by
  intro n
  induction n with
  | zero => intro a b msg fd _; trivial
  | succ n ih =>
    intro a b msg fd h
    simp only [broadcastF]
    obtain ⟨h1, h2⟩ := fanout_mod env m msg fd a b h
    rw [h2]
    exact closeAllWith_mod _ _ ih _ _ _ h1

theorem broadcast_mod (env : Env) (m : Nat → Bool) (a b : Server) (msg : Bytes) (ex : Int)
    (h : SameTable a b) :
    SameTable (broadcast (env.withMod m) a msg ex) (broadcast env b msg ex) := by
  have h1 := broadcastF_mod env m (b.clients.length + 1) a b msg ex h
  have h2 := broadcastF_adequate (env.withMod m) a msg ex
  have h3 := broadcastF_adequate env b msg ex
  rw [h.1] at h2
  rw [h2, h3] at h1
  exact h1

theorem close_client_mod (env : Env) (m : Nat → Bool) (a b : Server) (fd : Int)
    (h : SameTable a b) :
    SameTable (close_client (env.withMod m) a fd) (close_client env b fd) := by
  have h1 := closeWith_mod _ _ (broadcastF_mod env m b.clients.length) a b fd h
  have h2 := close_client_adequate (env.withMod m) a fd
  have h3 := close_client_adequate env b fd
  rw [h.1] at h2
  rw [h2, h3] at h1
  exact h1

theorem on_line_mod (env : Env) (m : Nat → Bool) (a b : Server) (fd : Int) (l : Bytes)
    (h : SameTable a b) :
    SameTable (on_line (env.withMod m) a fd l) (on_line env b fd l) := by
  unfold on_line
  rw [h.1]
  cases hc : findClient b.clients fd with
  | none => exact h
  | some c =>
    simp only
    by_cases hn : c.named = true
    · simp only [hn, Bool.not_true, Bool.false_eq_true, if_false]
      exact broadcast_mod env m _ _ _ _ h
    · have hn2 : c.named = false := by simpa using hn
      simp only [hn2, Bool.not_false, if_true]
      by_cases he : (trim_newlines l).isEmpty = true
      · simp only [he, if_true]
        exact ⟨rfl, by simpa [mod_epoll, World.push] using h.2⟩
      · simp only [he]
        exact broadcast_mod env m _ _ _ _ ⟨rfl, h.2⟩

theorem drainQueue_mod (env : Env) (m : Nat → Bool) (fd : Int) (q : List Bytes)
    (w w2 : World) (ht : w.tick = w2.tick) :
    (drainQueue (env.withMod m) fd q w).1 = (drainQueue env fd q w2).1 ∧
    (drainQueue (env.withMod m) fd q w).2.1 = (drainQueue env fd q w2).2.1 ∧
    (drainQueue (env.withMod m) fd q w).2.2.tick = (drainQueue env fd q w2).2.2.tick := by
  induction q generalizing w w2 with
  | nil => exact ⟨rfl, rfl, ht⟩
  | cons front later ih =>
    simp only [drainQueue, World.send, Env.withMod, ht]
    cases env.send w2.tick with
    | wouldBlock => simp [sysSend]
    | fatal => simp [sysSend]
    | accepted k =>
      simp only [sysSend]
      by_cases hk : min k front.length < front.length
      · simp [hk]
      · simp only [hk, if_false]
        exact ih _ _ rfl

theorem handle_write_mod (env : Env) (m : Nat → Bool) (a b : Server) (fd : Int)
    (h : SameTable a b) :
    SameTable (handle_write (env.withMod m) a fd) (handle_write env b fd) := by
  unfold handle_write
  rw [h.1]
  cases hc : findClient b.clients fd with
  | none => exact h
  | some c =>
    simp only
    obtain ⟨h1, h2, h3⟩ := drainQueue_mod env m fd c.outq a.w b.w h.2
    rcases hd : drainQueue env fd c.outq b.w with ⟨e, q, w1⟩
    rcases hd2 : drainQueue (env.withMod m) fd c.outq a.w with ⟨e2, q2, w2⟩
    rw [hd, hd2] at h1 h2 h3
    simp only at h1 h2 h3
    subst h1 h2
    cases e2 with
    | emptied => exact ⟨rfl, by simpa [mod_epoll] using h3⟩
    | blocked => exact ⟨rfl, h3⟩
    | shortWrite => exact ⟨rfl, h3⟩
    | failed => exact close_client_mod env m _ _ fd ⟨rfl, h3⟩

theorem accept_new_mod (env : Env) (m : Nat → Bool) :
    ∀ (conns : List (Int × Bool)) (a b : Server), SameTable a b →
      SameTable (accept_new (env.withMod m) conns a) (accept_new env conns b) := by
  intro conns
  induction conns with
  | nil => intro a b h; exact h
  | cons x rest ih =>
    intro a b h
    rcases x with ⟨cfd, nb⟩
    cases nb with
    | false =>
      simp only [accept_new, Bool.not_false, if_true]
      exact ih _ _ ⟨h.1, h.2⟩
    | true =>
      cases hadd : env.addOk b.w.tick with
      | false =>
        simp only [accept_new, add_epoll, Env.withMod, h.2, hadd, Bool.not_true,
          Bool.false_eq_true, if_false]
        exact ih _ _ ⟨h.1, by simp [sysClose, h.2]⟩
      | true =>
        simp only [accept_new, add_epoll, Env.withMod, h.2, hadd, Bool.not_true,
          Bool.false_eq_true, if_false, if_true]
        exact ih _ _ ⟨by rw [h.1], by simp [mod_epoll, World.push]⟩

/-- C9, as amended. The result of `mod_epoll` is ignored: whatever results the modify
calls have, `accept_new`, `on_line`, `broadcast` and `handle_write` leave the same
Connection Table, so no connection is torn down because a modify call on it failed. -/
theorem modify_result_ignored (env : Env) (m : Nat → Bool) (st : Server)
    (conns : List (Int × Bool)) (fd : Int) (L msg : Bytes) (ex : Int) :
    (accept_new (env.withMod m) conns st).clients = (accept_new env conns st).clients ∧
    (on_line (env.withMod m) st fd L).clients = (on_line env st fd L).clients ∧
    (broadcast (env.withMod m) st msg ex).clients = (broadcast env st msg ex).clients ∧
    (handle_write (env.withMod m) st fd).clients = (handle_write env st fd).clients :=
  ⟨(accept_new_mod env m conns st st ⟨rfl, rfl⟩).1,
    (on_line_mod env m st st fd L ⟨rfl, rfl⟩).1,
    (broadcast_mod env m st st msg ex ⟨rfl, rfl⟩).1,
    (handle_write_mod env m st st fd ⟨rfl, rfl⟩).1⟩

/-- C9, the claim as stated fails: in `accept_new` the modify call for descriptor 7 fails
and 7 is in the table when `accept_new` returns. -/
theorem modify_failure_teardown_cex :
    Event.modify 7 EPOLLIN_OUT_ET false ∈
      (accept_new modFailEnv [(7, true)] Server.init).w.log ∧
    7 ∈ fds (accept_new modFailEnv [(7, true)] Server.init).clients := by
  decide

/-! ## Use of a destroyed connection during line dispatch -/

theorem twoNamed_reachable : Reachable resetEnv twoNamed := by
  have h1 : Reachable resetEnv (accept_new resetEnv [(5, true), (6, true)] Server.init) :=
    Reachable.step _ _ Reachable.init (Step.accept _ _ ⟨by decide, by decide, trivial⟩)
  have h2 : Reachable resetEnv twoAccepted :=
    Reachable.step _ _ (Reachable.step _ _ h1 (Step.write _ 5)) (Step.write _ 6)
  have h3 : Reachable resetEnv oneNamed :=
    Reachable.step _ _ h2 (Step.read _ _ 5 ["A\n".toList] .wouldBlock rfl)
  exact Reachable.step _ _ h3 (Step.read _ _ 6 ["B\n".toList] .wouldBlock rfl)

/-- C10, the code at the failing input. From the empty table two connections are accepted
and named; then connection 5 sends two lines in one read.  The broadcast of the first line
fails on connection 6, whose teardown broadcasts its leave notice to connection 5; that
write fails too and connection 5 is erased, so `handle_read` goes on with a destroyed
entry. -/
theorem line_dispatch_use_after_free :
    Reachable resetEnv twoNamed ∧
    fds twoNamed.clients = [5, 6] ∧
    5 ∉ fds (on_line resetEnv twoNamed 5 "x".toList).clients ∧
    handle_read resetEnv twoNamed 5 ["x\ny\n".toList] .wouldBlock = .error .useAfterFree :=
  ⟨twoNamed_reachable, by decide, by decide, rfl⟩

/-! ## The theorems at concrete inputs -/

theorem naming_gate_witness :
    findClient demoTable.clients 7 = some ⟨7, false, [], [], []⟩ ∧
    trim_newlines "Al\r".toList ≠ [] ∧
    ∃ evs, (on_line okEnv demoTable 7 "Al\r".toList).w.log = demoTable.w.log ++ evs ∧
      (bcastsOf evs).filter
          (fun p => decide (p.1 = trim_newlines "Al\r".toList ++ joinedSuffix)) =
        [(trim_newlines "Al\r".toList ++ joinedSuffix, 7)] :=
  ⟨rfl, by decide,
    ((naming_gate okEnv demoTable 7 ⟨7, false, [], [], []⟩ "Al\r".toList rfl rfl).2
      (by decide)).2.2.1⟩

theorem chat_fanout_excludes_sender_witness :
    TableOk demoTable ∧
    findClient demoTable.clients 5 = some ⟨5, true, "A".toList, [], []⟩ ∧
    on_line okEnv demoTable 5 "hi".toList =
      closeAll okEnv (fanout okEnv ("A".toList ++ ": ".toList ++ "hi".toList ++ "\n".toList) 5
        demoTable).2
        (fanout okEnv ("A".toList ++ ": ".toList ++ "hi".toList ++ "\n".toList) 5
          demoTable).1 :=
  ⟨by decide, rfl,
    (chat_fanout_excludes_sender okEnv demoTable 5 ⟨5, true, "A".toList, [], []⟩ "hi".toList
      (by decide) rfl rfl).1⟩

theorem leave_notice_gating_witness :
    TableOk demoTable ∧
    findClient demoTable.clients 5 = some ⟨5, true, "A".toList, [], []⟩ ∧
    5 ∉ fds (close_client okEnv demoTable 5).clients :=
  ⟨by decide, rfl,
    (leave_notice_gating okEnv demoTable 5 ⟨5, true, "A".toList, [], []⟩ (by decide) rfl).1⟩

theorem broadcast_conserves_stream_witness :
    TableOk demoTable ∧
    (⟨6, true, "B".toList, [], ["q".toList]⟩ : Client) ∈ demoTable.clients ∧
    ∃ evs r2,
      (fanout okEnv "m".toList 5 demoTable).1.w.log =
        demoTable.w.log ++ Event.bcast "m".toList 5 :: evs ∧
      findClient (fanout okEnv "m".toList 5 demoTable).1.clients 6 = some r2 ∧
      sendsTo 6 evs = [] ∧ r2.outq = ["q".toList] ++ ["m".toList] :=
  ⟨by decide, by decide,
    let ⟨evs, r2, h1, h2, _, h4, _⟩ :=
      broadcast_conserves_stream okEnv demoTable "m".toList 5
        ⟨6, true, "B".toList, [], ["q".toList]⟩ (by decide) (by decide) (by decide)
    ⟨evs, r2, h1, h2, (h4 (by decide)).1, (h4 (by decide)).2⟩⟩

theorem line_framing_witness :
    findClient demoTable.clients 5 = some ⟨5, true, "A".toList, [], []⟩ ∧
    drainRecv [] ["a\r\nb\nc".toList] .wouldBlock =
      ((["a\r".toList, "b".toList].map (fun s => s ++ ['\n'])).flatten ++ "c".toList, false) ∧
    isUseAfterFree (handle_read okEnv demoTable 5 ["a\r\nb\nc".toList] .wouldBlock) = false ∧
    ∃ st2 evs c2, handle_read okEnv demoTable 5 ["a\r\nb\nc".toList] .wouldBlock = .ok st2 ∧
      st2.w.log = demoTable.w.log ++ evs ∧
      linesOf 5 evs = ["a\r".toList, "b".toList].map stripTrailingCR ∧
      findClient st2.clients 5 = some c2 ∧ c2.inbuf = "c".toList :=
  ⟨rfl, by decide, by decide,
    let ⟨st2, evs, c2, h1, h2, h3, _, h5, h6⟩ :=
      line_framing okEnv demoTable 5 ⟨5, true, "A".toList, [], []⟩ ["a\r\nb\nc".toList]
        .wouldBlock ["a\r".toList, "b".toList] "c".toList rfl (by decide) (by decide)
        (by decide)
        (fun h => absurd (congrArg isUseAfterFree h) (by decide))
    ⟨st2, evs, c2, h1, h2, h3, h5, h6⟩⟩

theorem handle_write_fifo_witness :
    findClient demoTable.clients 6 = some ⟨6, true, "B".toList, [], ["q".toList]⟩ ∧
    ∃ evs, (handle_write okEnv demoTable 6).w.log = demoTable.w.log ++ evs :=
  ⟨rfl,
    let ⟨evs, h, _⟩ :=
      handle_write_fifo okEnv demoTable 6 ⟨6, true, "B".toList, [], ["q".toList]⟩ rfl
    ⟨evs, h⟩⟩

theorem names_immutable_witness :
    findClient demoTable.clients 5 = some ⟨5, true, "A".toList, [], []⟩ ∧
    NamesKept demoTable (on_line okEnv demoTable 5 []) ∧
    on_line okEnv demoTable 5 [] =
      broadcast okEnv demoTable ("A".toList ++ ": ".toList ++ [] ++ "\n".toList) 5 :=
  ⟨rfl,
    (names_immutable okEnv demoTable 5 [] [] 0 [] .wouldBlock).2.1,
    ((names_immutable okEnv demoTable 5 [] [] 0 [] .wouldBlock).1
      ⟨5, true, "A".toList, [], []⟩ rfl rfl).1⟩

end ChatServer
